import Mathlib

/-!
Verification development for the Excel reconciliation scripts
(`compare_excel.py`, `column_mapping.py`, `generate_master_verified.py`,
`generate_disputes.py`).  The Python code is shallowly embedded: cell
values become a tagged union, pandas frames become lists of rows, Python
dicts become association lists with replace-in-place insertion, and the
external fuzzy scorer (`thefuzz.fuzz.ratio` via `process.extractOne`) is
an abstract parameter `scorer : String → String → Nat` on a 0–100 scale.
-/

namespace Recon

/-! ## Python-style character classes -/

/-- Characters treated as whitespace both by Python's `str.strip()` and
by the regex class `\s` on `str` patterns (both follow the Unicode
whitespace property plus the ASCII field separators U+001C–U+001F).
The zero-width characters U+200B–U+200F are NOT whitespace in Python. -/
def pySpaceChars : List Char :=
  [' ', '\t', '\n', '\x0b', '\x0c', '\r',
   '\x1c', '\x1d', '\x1e', '\x1f', '\u0085', ' ',
   ' ', ' ', ' ', ' ', ' ', ' ', ' ',
   ' ', ' ', ' ', ' ', ' ',
   ' ', ' ', ' ', ' ', '　']

def isPySpace (c : Char) : Bool := pySpaceChars.contains c

/-- Left part of Python `str.strip()`: drop leading whitespace. -/
def stripLeft (l : List Char) : List Char := l.dropWhile isPySpace

/-- Right part of Python `str.strip()`: drop trailing whitespace.
Stated structurally (a character survives unless it is whitespace and
everything after it is dropped), which agrees with reversing, dropping a
whitespace prefix and reversing back. -/
def stripRight : List Char → List Char
  | [] => []
  | c :: rest =>
    let r := stripRight rest
    if r.isEmpty && isPySpace c then [] else c :: r

/-- Python `str.strip()` on a character list. -/
def pyStripList (l : List Char) : List Char := stripRight (stripLeft l)

/-- Python `str.strip()`. -/
def pyStrip (s : String) : String := ⟨pyStripList s.data⟩

/-! ## PersianNormalizer (compare_excel.py, lines 59–118) -/

/-- CHAR_MAP of `PersianNormalizer`: the sequential `str.replace` pairs
(Arabic Yeh/Kaf to Persian, Arabic-Indic and Persian digits to ASCII).
Since every mapped character is a single code point, the domains are
pairwise distinct and no image character occurs in any domain, so the
sequence of replaces equals one simultaneous character map. -/
def charMap : List (Char × Char) :=
  [('ي', 'ی'), ('ك', 'ک'),
   ('٠', '0'), ('١', '1'), ('٢', '2'), ('٣', '3'),
   ('٤', '4'), ('٥', '5'), ('٦', '6'), ('٧', '7'),
   ('٨', '8'), ('٩', '9'),
   ('۰', '0'), ('۱', '1'), ('۲', '2'), ('۳', '3'),
   ('۴', '4'), ('۵', '5'), ('۶', '6'), ('۷', '7'),
   ('۸', '8'), ('۹', '9')]

def mapChar (c : Char) : Char :=
  match charMap.find? (fun p => p.1 == c) with
  | some p => p.2
  | none => c

/-- ZERO_WIDTH_CHARS of `PersianNormalizer`: ZWNJ, zero-width space,
ZWJ, BOM, LRM, RLM. -/
def zwChars : List Char :=
  ['‌', '​', '‍', '﻿', '‎', '‏']

def isZW (c : Char) : Bool := zwChars.contains c

def stripZW (l : List Char) : List Char := l.filter (fun c => !isZW c)

/-- Model of `re.sub(r'\s+', ' ', text)`: each maximal run of whitespace
becomes a single ASCII space.  The boolean state records whether we are
inside a whitespace run whose single space has already been emitted. -/
def collapseGo : Bool → List Char → List Char
  | _, [] => []
  | inWS, c :: rest =>
    if isPySpace c then
      if inWS then collapseGo true rest
      else ' ' :: collapseGo true rest
    else c :: collapseGo false rest

def collapseWS (l : List Char) : List Char := collapseGo false l

/-- Body of `PersianNormalizer.normalize` on the character list of
`str(text)`: character map, zero-width removal, whitespace collapse,
strip. -/
def normList (l : List Char) : List Char :=
  pyStripList (collapseWS (stripZW (l.map mapChar)))

/-- String form of `PersianNormalizer.normalize` (the `pd.isna` guard
lives in `valNormalize` below). -/
def normStr (s : String) : String := ⟨normList s.data⟩

/-- Model of `PersianNormalizer.normalize_for_comparison`:
`normalize(text).replace(' ', '').lower()`.  Python `str.lower()` is
modelled per-character (`Char.toLower`); the labels in scope are Persian
(caseless) or ASCII. -/
def normComp (s : String) : String :=
  ⟨((normStr s).data.filter (fun c => c != ' ')).map Char.toLower⟩

/-! ## Cell values

A cell value read from a sheet is `None`/`NaN`, a number, or text.
Python's float `NaN` is folded into `vNone`: every embedded function
guards with `pd.isna` before ever looking at a number, so the two are
indistinguishable here. -/

inductive Value where
  | vNone : Value
  | vNum : ℚ → Value
  | vStr : String → Value
  deriving DecidableEq, Repr

open Value

/-- Model of `pd.isna`. -/
def pdIsna : Value → Bool
  | vNone => true
  | _ => false

/-- Model of Python `str(number)` for a numeric cell.  Python prints a
float in shortest decimal form; the embedding spells out the integral
case and falls back to the raw rational rendering otherwise.  Its only
uses are (a) the emptiness test in `compareVals`, where all that matters
is that the string never strips to empty, and (b) joining header cells
into a scan string, where numeric cells never contain the searched
keywords; no claim depends on its exact spelling. -/
def pyNumStr (q : ℚ) : String :=
  if q.den = 1 then toString q.num ++ ".0" else toString q

/-- Model of Python `str(value)` (with `str(nan) = "nan"`). -/
def pyStr : Value → String
  | vNone => "nan"
  | vNum q => pyNumStr q
  | vStr s => s

/-- Predicate from `ValueComparator.compare`:
`pd.isna(val) or str(val).strip() == ""`.  For a number, `str(value)`
always contains a digit, hence never strips to empty. -/
def isEmptyVal : Value → Bool
  | vNone => true
  | vNum _ => false
  | vStr s => pyStrip s == ""

/-- Model of `PersianNormalizer.normalize` including the `pd.isna`
guard (returns the empty string on `None`/`NaN`). -/
def valNormalize : Value → String
  | vNone => ""
  | vNum q => normStr (pyNumStr q)
  | vStr s => normStr s

/-! ## Python float() parsing

The functions below model Python's `float(str)` on its decimal grammar:
optional surrounding whitespace, optional sign, digits with an optional
decimal point (at least one digit overall), optional exponent.  Python's
`float` accepts any Unicode decimal digit; the embedding accepts ASCII
plus the Arabic-Indic and Persian digit blocks, the repertoire of this
domain (`mapChar` already sends those to ASCII).  The special spellings
`inf`/`nan` and digit-group underscores are outside the embedded
grammar; no claim involves them. -/

/-- Digit test covering ASCII plus the locale digit blocks of
`charMap`. -/
def isDigitX (c : Char) : Bool := (mapChar c).isDigit

/-- Numeric value of a digit accepted by `isDigitX`. -/
def digitValX (c : Char) : Nat := (mapChar c).toNat - '0'.toNat

def digitsToNat (l : List Char) : Nat :=
  l.foldl (fun acc c => 10 * acc + digitValX c) 0

/-- Optional sign: returns (isNegative, rest). -/
def parseSign (l : List Char) : Bool × List Char :=
  match l with
  | [] => (false, [])
  | c :: rest =>
    if c == '-' then (true, rest)
    else if c == '+' then (false, rest)
    else (false, c :: rest)

/-- Optional exponent part `([eE][-+]?digits)?`; fails (returns `none`)
on a dangling exponent marker, mirroring `float("1e")` raising. -/
def parseExp : List Char → Option ℤ
  | [] => some 0
  | e :: rest =>
    if e == 'e' || e == 'E' then
      let (neg, rest') := parseSign rest
      let ds := rest'.takeWhile isDigitX
      let tail := rest'.dropWhile isDigitX
      if ds.isEmpty || !tail.isEmpty then none
      else some (if neg then -(digitsToNat ds : ℤ) else (digitsToNat ds : ℤ))
    else none

/-- Mantissa and exponent of the stripped, signless body:
digits, an optional dot with further digits, an optional exponent, with
at least one digit overall. -/
def parseBody (l : List Char) : Option ℚ :=
  let ip := l.takeWhile isDigitX
  let rest := l.dropWhile isDigitX
  match rest with
  | c :: rest' =>
    if c == '.' then
      let fp := rest'.takeWhile isDigitX
      let rest'' := rest'.dropWhile isDigitX
      if ip.isEmpty && fp.isEmpty then none
      else
        match parseExp rest'' with
        | some e =>
          let base : ℚ := (digitsToNat ip : ℚ) + (digitsToNat fp : ℚ) / (10 ^ fp.length : ℚ)
          some (base * (10 : ℚ) ^ e)
        | none => none
    else
      if ip.isEmpty then none
      else
        match parseExp rest with
        | some e => some ((digitsToNat ip : ℚ) * (10 : ℚ) ^ e)
        | none => none
  | [] =>
    if ip.isEmpty then none
    else
      match parseExp [] with
      | some e => some ((digitsToNat ip : ℚ) * (10 : ℚ) ^ e)
      | none => none

/-- Model of Python `float(s)` restricted to the decimal grammar. -/
def pyFloat (s : String) : Option ℚ :=
  let core := pyStripList s.data
  let (neg, core') := parseSign core
  match parseBody core' with
  | some q => some (if neg then -q else q)
  | none => none

/-! ## ValueComparator (compare_excel.py, lines 270–339) -/

/-- Separator removal in `is_numeric`:
`str(value).replace(',', '').replace('٬', '')`. -/
def stripSeps (s : String) : String :=
  ⟨s.data.filter (fun c => c != ',' && c != '٬')⟩

/-- Separator and space removal in `to_numeric`:
`str(value).replace(',', '').replace('٬', '').replace(' ', '')`. -/
def stripSepsSpace (s : String) : String :=
  ⟨s.data.filter (fun c => c != ',' && c != '٬' && c != ' ')⟩

/-- Model of `ValueComparator.is_numeric`. -/
def isNumericVal : Value → Bool
  | vNone => false
  | vNum _ => true
  | vStr s => (pyFloat (stripSeps s)).isSome

/-- Model of `ValueComparator.to_numeric`: returns `0.0` whenever no
numeric interpretation exists. -/
def toNumericVal : Value → ℚ
  | vNone => 0
  | vNum q => q
  | vStr s => (pyFloat (stripSepsSpace s)).getD 0

/-- Model of `ValueComparator.compare` with the numeric tolerance as an
explicit parameter (the CLI can override `Config.NUMERIC_TOLERANCE`).
Returns `(are_equal, numeric_difference_or_none)`. -/
def compareVals (val1 val2 : Value) (tol : ℚ) : Bool × Option ℚ :=
  let e1 := isEmptyVal val1
  let e2 := isEmptyVal val2
  if e1 && e2 then (true, none)
  else if e1 != e2 then
    if isNumericVal val1 || isNumericVal val2 then
      (false, some (toNumericVal val1 - toNumericVal val2))
    else (false, none)
  else if isNumericVal val1 && isNumericVal val2 then
    let difference := toNumericVal val1 - toNumericVal val2
    if |difference| ≤ tol then (true, none)
    else (false, some difference)
  else (valNormalize val1 == valNormalize val2, none)

/-! ## Canonical-form infrastructure for the normalizer -/

/-- Boolean test that a list does not start with whitespace. -/
def headNS : List Char → Bool
  | [] => true
  | c :: _ => !isPySpace c

/-- Boolean test that a list does not end with whitespace. -/
def lastNS : List Char → Bool
  | [] => true
  | [c] => !isPySpace c
  | _ :: rest => lastNS rest

/-- Boolean test that no two adjacent characters are both whitespace. -/
def sepOK : List Char → Bool
  | a :: b :: rest => (!(isPySpace a && isPySpace b)) && sepOK (b :: rest)
  | _ => true

/-! ## clean_numeric (generate_disputes.py, lines 36–43) -/

/-- Model of `generate_disputes.clean_numeric`: `float(val)` with `NaN`
and failures mapped to `0.0`. -/
def cleanNumeric : Value → ℚ
  | vNone => 0
  | vNum q => q
  | vStr s => (pyFloat s).getD 0

/-! ## clean_numeric_value (generate_master_verified.py, lines 98–143) -/

/-- PERSIAN_DIGITS of `generate_master_verified`: Persian and
Arabic-Indic digits to ASCII. -/
def persianDigitPairs : List (Char × Char) :=
  [('۰', '0'), ('۱', '1'), ('۲', '2'), ('۳', '3'), ('۴', '4'),
   ('۵', '5'), ('۶', '6'), ('۷', '7'), ('۸', '8'), ('۹', '9'),
   ('٠', '0'), ('١', '1'), ('٢', '2'), ('٣', '3'), ('٤', '4'),
   ('٥', '5'), ('٦', '6'), ('٧', '7'), ('٨', '8'), ('٩', '9')]

def perDigitChar (c : Char) : Char :=
  match persianDigitPairs.find? (fun p => p.1 == c) with
  | some p => p.2
  | none => c

/-- Model of `persian_to_english` on a string. -/
def persianToEnglish (s : String) : String := ⟨s.data.map perDigitChar⟩

/-- Python `str.isdigit()`: nonempty and all digits. -/
def pyIsDigitStr (l : List Char) : Bool := !l.isEmpty && l.all isDigitX

def applySign (neg : Bool) (q : ℚ) : ℚ := if neg then -q else q

/-- Greedy optional exponent of the regex part `([eE][-+]?digits)?`:
consumed only when a complete exponent is present, otherwise it matches
empty. -/
def tryExpOpt (l : List Char) : ℤ :=
  match l with
  | [] => 0
  | e :: rest =>
    if e == 'e' || e == 'E' then
      let (neg, r) := parseSign rest
      let ds := r.takeWhile isDigitX
      if ds.isEmpty then 0
      else if neg then -(digitsToNat ds : ℤ) else (digitsToNat ds : ℤ)
    else 0

/-- Match of the regex `[-+]?\d*\.?\d+([eE][-+]?\d+)?` anchored at the
head of the list, with Python's greedy/backtracking semantics: sign,
maximal digit run, optionally a dot and a second maximal digit run (the
dot is given back when no digit follows it), optionally a complete
exponent; at least one digit overall. -/
def matchNumAt (l : List Char) : Option ℚ :=
  let (neg, r1) := parseSign l
  let ip := r1.takeWhile isDigitX
  let r2 := r1.dropWhile isDigitX
  match r2 with
  | c :: r3 =>
    if c == '.' then
      let fp := r3.takeWhile isDigitX
      if fp.isEmpty then
        if ip.isEmpty then none
        else some (applySign neg (digitsToNat ip : ℚ))
      else
        let r4 := r3.dropWhile isDigitX
        let e := tryExpOpt r4
        some (applySign neg
          (((digitsToNat ip : ℚ) + (digitsToNat fp : ℚ) / (10 ^ fp.length : ℚ))
            * (10 : ℚ) ^ e))
    else
      if ip.isEmpty then none
      else
        let e := tryExpOpt r2
        some (applySign neg ((digitsToNat ip : ℚ) * (10 : ℚ) ^ e))
  | [] =>
    if ip.isEmpty then none
    else
      let e := tryExpOpt r2
      some (applySign neg ((digitsToNat ip : ℚ) * (10 : ℚ) ^ e))

/-- Model of `re.search` with the pattern above: leftmost match,
returned already parsed (Python's `float` on a text matched by this
pattern cannot fail). -/
def regexSearchNum : List Char → Option ℚ
  | [] => none
  | l@(_ :: t) =>
    match matchNumAt l with
    | some q => some q
    | none => regexSearchNum t

/-- Model of `clean_numeric_value`: strip, dash short-circuits, locale
digit conversion, separator removal, the slash branch, then regex
extraction; every failure path returns `0.0`. -/
def cleanNumericValue : Value → ℚ
  | vNone => 0
  | vNum q => q
  | vStr s₀ =>
    let text₀ := pyStrip s₀
    if text₀ = "" ∨ text₀ = "-" ∨ text₀ = "—" then 0
    else
      let t1 := (persianToEnglish text₀).data
      let t2 := (t1.filter (fun c => c != ',')).filter (fun c => c != ' ')
      if t2.contains '/' &&
          !(pyIsDigitStr (t2.filter (fun c => c != '/' && c != '.' && c != '-'))) then
        (pyFloat ⟨t2.takeWhile (fun c => c != '/')⟩).getD 0
      else
        (regexSearchNum t2).getD 0

/-! ## Python dicts as association lists

Keys are inserted in order; inserting an existing key replaces its value
in place (Python dict update).  All dicts built below have unique keys,
so replacing the first occurrence models Python exactly. -/

abbrev Dict := List (String × String)

def dictInsert : Dict → String → String → Dict
  | [], k, v => [(k, v)]
  | p :: d, k, v => if p.1 == k then (k, v) :: d else p :: dictInsert d k v

def dictLookup : Dict → String → Option String
  | [], _ => none
  | p :: d, k => if p.1 == k then some p.2 else dictLookup d k

def dictDelete (d : Dict) (k : String) : Dict :=
  d.filter (fun p => p.1 != k)

/-- Dict comprehension over a list with key function `f`:
Python `{f(c): c for c in cols}` (later duplicates replace earlier
values in place). -/
def buildDictBy (f : String → String) (cols : List String) : Dict :=
  cols.foldl (fun d c => dictInsert d (f c) c) []

/-- Model of `thefuzz.process.extractOne`: best-scoring choice, first
one on ties, `none` on an empty choice list.  The scorer (including the
library's internal preprocessing) is an abstract parameter. -/
def extractOne (q : String) (keys : List String) (scorer : String → String → Nat) :
    Option (String × Nat) :=
  keys.foldl (fun best k =>
    match best with
    | none => some (k, scorer q k)
    | some (bk, bs) => if scorer q k > bs then some (k, scorer q k) else some (bk, bs))
    none

/-! ## ColumnMapper (compare_excel.py, lines 192–247) -/

/-- Exact pass of `ColumnMapper._build_mapping`: iterate the employer
normalized dict; on a hit in the contractor normalized dict, record the
mapping and mark the contractor column used. -/
def exactGo (conN : Dict) : Dict × List String → List (String × String) → Dict × List String
  | acc, [] => acc
  | acc, (n, e) :: rest =>
    match dictLookup conN n with
    | some c => exactGo conN (dictInsert acc.1 e c, acc.2 ++ [c]) rest
    | none => exactGo conN acc rest

/-- Fuzzy pass of `ColumnMapper._build_mapping`: for each unmatched
employer column, take the best fuzzy match among the remaining
contractor normalized keys; accept it when the score reaches the
threshold, and delete the used key from the pool. -/
def fuzzyGo (scorer : String → String → Nat) (θ : Nat) :
    Dict × Dict → List String → Dict
  | acc, [] => acc.1
  | acc, e :: rest =>
    match extractOne (normComp e) (acc.2.map (fun p => p.1)) scorer with
    | some (k, s) =>
      if s ≥ θ then
        match dictLookup acc.2 k with
        | some c => fuzzyGo scorer θ (dictInsert acc.1 e c, dictDelete acc.2 k) rest
        | none => fuzzyGo scorer θ acc rest
      else fuzzyGo scorer θ acc rest
    | none => fuzzyGo scorer θ acc rest

/-- Model of `ColumnMapper._build_mapping` (the whole constructor):
normalized dicts for both column lists, exact pass, then — only when
both unmatched pools are nonempty, per the Python truthiness guard — the
fuzzy pass with threshold `θ` (`Config.COLUMN_MATCH_THRESHOLD = 75`). -/
def buildMapping (empCols conCols : List String)
    (scorer : String → String → Nat) (θ : Nat) : Dict :=
  let empN := buildDictBy normComp empCols
  let conN := buildDictBy normComp conCols
  let exact := exactGo conN ([], []) empN
  let mapping := exact.1
  let used := exact.2
  let unmatchedE := empCols.filter (fun c => (dictLookup mapping c).isNone)
  let unmatchedC := conCols.filter (fun c => !(used.contains c))
  if unmatchedE.isEmpty || unmatchedC.isEmpty then mapping
  else fuzzyGo scorer θ (mapping, buildDictBy normComp unmatchedC) unmatchedE

/-! ## Dictionary lemmas -/

def keysND (d : Dict) : Prop := (d.map (fun p => p.1)).Nodup

def valsInj (d : Dict) : Prop := ∀ p ∈ d, ∀ q ∈ d, p.2 = q.2 → p.1 = q.1

/-! ## SheetFinder (compare_excel.py, lines 125–185) -/

/-- Model of `SheetFinder.find_sheet` on the workbook's sheet-name list:
exact normalized match first (not fuzzy-flagged); otherwise the best
fuzzy match over the normalized-name dict keys when its score reaches
`Config.SHEET_MATCH_THRESHOLD = 70`; otherwise the first sheet, flagged
fuzzy.  On an empty workbook — impossible for a real file; Python would
raise an IndexError at `available_sheets[0]` — the model yields
`none`. -/
def findSheet (sheets : List String) (target : String)
    (scorer : String → String → Nat) : Option (String × Bool) :=
  let normalizedTarget := normStr target
  match sheets.find? (fun s => normStr s == normalizedTarget) with
  | some s => some (s, false)
  | none =>
    let nd := buildDictBy normStr sheets
    match extractOne normalizedTarget (nd.map (fun p => p.1)) scorer with
    | some ks =>
      if ks.2 ≥ 70 then (dictLookup nd ks.1).map (fun m => (m, true))
      else sheets.head?.map (fun s => (s, true))
    | none => sheets.head?.map (fun s => (s, true))

/-! ## find_header_rows (column_mapping.py, lines 46–75) -/

/-- Python truthiness of a cell value in the scan-row comprehension
(`str(v) for v in row_data if v`): None, 0 and the empty string are
falsy. -/
def truthy : Value → Bool
  | vNone => false
  | vNum q => q != 0
  | vStr s => s != ""

/-- Scan string of a row: `' '.join(str(v) for v in row_data if v)`. -/
def rowStr (cells : List Value) : String :=
  String.intercalate " " ((cells.filter truthy).map pyStr)

/-- Python substring test (`needle in haystack`) on character lists. -/
def listSub (n : List Char) : List Char → Bool
  | [] => n.isEmpty
  | c :: t => n.isPrefixOf (c :: t) || listSub n t

def strContains (hay needle : String) : Bool := listSub needle.data hay.data

/-- The `standard_columns` keyword set of `find_header_rows`. -/
def STANDARD_COLS : List String := ["ردیف", "W.B.S", "عنوان فعالیت"]

/-- The `section_headers` keyword set of `find_header_rows`. -/
def SECTION_HEADERS : List String :=
  ["گروه مشارکت", "مشاور زیربنایی", "مشاور زیر بنایی", "پیمانکار-قطعی"]

/-- Binary gate: the row's scan string must contain at least one
standard column identifier AND at least one section header. -/
def gateRow (cells : List Value) : Bool :=
  STANDARD_COLS.any (fun k => strContains (rowStr cells) k) &&
    SECTION_HEADERS.any (fun k => strContains (rowStr cells) k)

/-- Row access `ws[row_idx]`, 1-based; rows beyond the sheet bounds read
as empty (their scan string is empty and cannot pass the gate). -/
def rowAt (rows : List (List Value)) (i : Nat) : List Value :=
  rows.getD (i - 1) []

/-- Scan loop of `find_header_rows` — `for row_idx in range(1, max+1)` —
returning `(row_idx, row_idx + 1)` at the first qualifying row. -/
def goScan (rows : List (List Value)) : Nat → Nat → Option (Nat × Nat)
  | _, 0 => none
  | i, fuel + 1 =>
    if gateRow (rowAt rows i) then some (i, i + 1) else goScan rows (i + 1) fuel

/-- Model of `find_header_rows` (default `max_search_rows = 15`). -/
def findHeaderRows (rows : List (List Value)) (maxScan : Nat := 15) :
    Option (Nat × Nat) :=
  goScan rows 1 maxScan

/-! ## Zero-total sanity check (generate_master_verified.py, lines 544–553) -/

structure SheetSummary where
  name : String
  contractorTotal : ℚ
  employerTotal : ℚ
  contractorItems : Nat
  employerItems : Nat

/-- Sanity-check warning event.  The Python code appends a formatted
string to `warnings_log`; the event carries the same information (which
sheet, how many rows, which side's total was zero), so that counting
events is counting logged warnings. -/
inductive Warning where
  | employerZero (sheet : String) (rows : Nat) : Warning
  | contractorZero (sheet : String) (rows : Nat) : Warning
  deriving DecidableEq, Repr

def warnSheet : Warning → String
  | Warning.employerZero n _ => n
  | Warning.contractorZero n _ => n

/-- Model of the STEP 4 sanity checks of `process_files`: for each
processed sheet, in order, a warning when the employer total is 0 with
items extracted, then a warning when the contractor total is 0 with
items extracted.  Warnings are collected and printed in a summary; they
never interrupt processing, and disputes are reported separately. -/
def sanityWarnings : List SheetSummary → List Warning
  | [] => []
  | s :: rest =>
    (if s.employerTotal = 0 ∧ 0 < s.employerItems
      then [Warning.employerZero s.name s.employerItems] else []) ++
    ((if s.contractorTotal = 0 ∧ 0 < s.contractorItems
      then [Warning.contractorZero s.name s.contractorItems] else []) ++
    sanityWarnings rest)

/-! ## RowAligner and the comparison loop (compare_excel.py, lines
346–423 and 640–680) -/

/-- A data frame: column labels plus rows of cell values (one value per
column position). -/
structure Frame where
  cols : List String
  rows : List (List Value)
  deriving DecidableEq, Repr

/-- ID_COLUMN_CANDIDATES of `Config`. -/
def ID_COLUMN_CANDIDATES : List String :=
  ["ردیف", "شماره ردیف", "آیتم", "شناسه", "کد", "Row Number",
   "Item ID", "ID", "شماره", "ش", "row", "id", "item"]

/-- Value of a row under a column label; a missing label reads as null
(Python would raise a KeyError there — the theorems below only use
labels that exist). -/
def cellOfRow (cols : List String) (row : List Value) (label : String) : Value :=
  match cols.findIdx? (fun c => c == label) with
  | some i => row.getD i Value.vNone
  | none => Value.vNone

/-- Model of `RowAligner.find_id_column`: for each candidate in order,
an exact normalized match against the column dict, then a fuzzy scan of
the dict entries at threshold 80 with the abstract scorer. -/
def findIdColumn (f : Frame) (scorer : String → String → Nat) : Option String :=
  let colsN := buildDictBy normComp f.cols
  ID_COLUMN_CANDIDATES.findSome? (fun cand =>
    match dictLookup colsN (normComp cand) with
    | some orig => some orig
    | none =>
      (colsN.find? (fun p => scorer (normComp cand) p.1 ≥ 80)).map (fun p => p.2))

/-- Python truthiness of `emp_id_col and con_id_col` for an optional
column label: None and the empty string are falsy. -/
def optStrTruthy : Option String → Bool
  | none => false
  | some s => s != ""

/-- First-occurrence de-duplication: `pandas.Index.intersection`
returns unique values, preserving the calling index's order. -/
def dedupGo (seen : List String) : List String → List String
  | [] => []
  | a :: rest => if a ∈ seen then dedupGo seen rest else a :: dedupGo (a :: seen) rest

def dedupFirst (l : List String) : List String := dedupGo [] l

/-- Model of `df.loc[keys]` on a possibly duplicated index: for each
key, in order, all rows bearing that key. -/
def locAll (rows : List (List Value)) (keyF : List Value → String) :
    List String → List (List Value)
  | [] => []
  | k :: ks => rows.filter (fun r => keyF r == k) ++ locAll rows keyF ks

/-- Model of `RowAligner.align_dataframes`.  When both frames expose a
(truthy) identifier column: normalize the key values, intersect the two
key indexes (de-duplicated, employer order) and `loc`-select the common
keys on both sides; the employer id column name is returned and there is
no warning channel.  Otherwise align positionally, truncating both
frames to the shorter length. -/
def alignDataframes (dfE dfC : Frame) (scorer : String → String → Nat) :
    Frame × Frame × Option String :=
  let idE := findIdColumn dfE scorer
  let idC := findIdColumn dfC scorer
  if optStrTruthy idE && optStrTruthy idC then
    let e := idE.getD ""
    let c := idC.getD ""
    let kE := fun r => valNormalize (cellOfRow dfE.cols r e)
    let kC := fun r => valNormalize (cellOfRow dfC.cols r c)
    let common := dedupFirst
      ((dfE.rows.map kE).filter (fun k => (dfC.rows.map kC).contains k))
    (⟨dfE.cols, locAll dfE.rows kE common⟩,
      ⟨dfC.cols, locAll dfC.rows kC common⟩, some e)
  else
    let m := min dfE.rows.length dfC.rows.length
    (⟨dfE.cols, dfE.rows.take m⟩, ⟨dfC.cols, dfC.rows.take m⟩, none)

/-- A dispute record, the fields of `DisputeReport.add_dispute` (the
report's display substitution of a placeholder for missing values is
presentation and kept out of the record). -/
structure Dispute where
  rowId : String
  colName : String
  contractorValue : Value
  employerValue : Value
  difference : Option ℚ
  deriving DecidableEq, Repr

/-- Row identifier used by `_compare_data`:
`str(df_employer.iloc[row_idx].get(id_col, row_idx + 1))` when an ID
column was found, else `str(row_idx + 1)`. -/
def rowIdOf (dfE : Frame) (idCol : Option String) (i : Nat) : String :=
  match idCol with
  | some c =>
    match dfE.cols.findIdx? (fun x => x == c) with
    | some j => pyStr ((dfE.rows.getD i []).getD j Value.vNone)
    | none => toString (i + 1)
  | none => toString (i + 1)

/-- Disputes of one row: for every mapped column pair, compare the
contractor value against the employer value and record every
non-match. -/
def rowDisputes (dfE dfC : Frame) (mapped : List (String × String))
    (idCol : Option String) (tol : ℚ) (i : Nat) : List Dispute :=
  mapped.foldr (fun p acc =>
    let empValue := cellOfRow dfE.cols (dfE.rows.getD i []) p.1
    let conValue := cellOfRow dfC.cols (dfC.rows.getD i []) p.2
    let r := compareVals conValue empValue tol
    if r.1 then acc
    else ⟨rowIdOf dfE idCol i, p.1, conValue, empValue, r.2⟩ :: acc) []

/-- Row loop of `_compare_data` over `range(len(df_employer))`. -/
def forRows (g : Nat → List Dispute) : Nat → List Dispute
  | 0 => []
  | k + 1 => forRows g k ++ g k

/-- Model of `ExcelComparator._compare_data` on the aligned frames: one
dispute record per mapped column pair and row whose values do not
compare equal. -/
def compareData (dfE dfC : Frame) (mapped : List (String × String))
    (idCol : Option String) (tol : ℚ) : List Dispute :=
  forRows (rowDisputes dfE dfC mapped idCol tol) dfE.rows.length

/-! ## Theorems -/

theorem listMapId {f : Char → Char} {l : List Char}
    (h : ∀ c ∈ l, f c = c) : l.map f = l := by
  induction l with
  | nil => rfl
  | cons c t ih =>
    simp only [List.map_cons, h c (by simp)]
    rw [ih (fun d hd => h d (by simp [hd]))]

theorem listFilterId {p : Char → Bool} {l : List Char}
    (h : ∀ c ∈ l, p c = true) : l.filter p = l := by
  induction l with
  | nil => rfl
  | cons c t ih =>
    simp only [List.filter_cons, h c (by simp), if_true]
    rw [ih (fun d hd => h d (by simp [hd]))]

theorem charMapImageFixed : ∀ p ∈ charMap, mapChar p.2 = p.2 := by decide

theorem mapChar_mapChar (c : Char) : mapChar (mapChar c) = mapChar c := by
  cases h : charMap.find? (fun p => p.1 == c) with
  | none =>
    have hc : mapChar c = c := by unfold mapChar; rw [h]
    rw [hc]; exact hc
  | some p =>
    have hmem : p ∈ charMap := List.mem_of_find?_eq_some h
    have hc : mapChar c = p.2 := by unfold mapChar; rw [h]
    rw [hc]
    exact charMapImageFixed p hmem

theorem mem_map_fixed {l : List Char} {c : Char}
    (h : c ∈ l.map mapChar) : mapChar c = c := by
  rcases List.mem_map.mp h with ⟨d, _, rfl⟩
  exact mapChar_mapChar d

theorem mem_stripZW_subset {l : List Char} {c : Char}
    (h : c ∈ stripZW l) : c ∈ l := (List.mem_filter.mp h).1

theorem mem_stripZW_noZW {l : List Char} {c : Char}
    (h : c ∈ stripZW l) : isZW c = false := by
  have := (List.mem_filter.mp h).2
  simpa using this

theorem collapse_mem {c : Char} :
    ∀ (l : List Char) (b : Bool), c ∈ collapseGo b l → c = ' ' ∨ c ∈ l := by
  intro l
  induction l with
  | nil => intro b h; simp [collapseGo] at h
  | cons a t ih =>
    intro b h
    by_cases ha : isPySpace a = true
    · cases b with
      | true =>
        simp only [collapseGo, ha, if_true] at h
        rcases ih true h with h' | h'
        · exact Or.inl h'
        · exact Or.inr (by simp [h'])
      | false =>
        simp only [collapseGo, ha, if_true] at h
        rcases List.mem_cons.mp h with h | h
        · exact Or.inl h
        · rcases ih true h with h' | h'
          · exact Or.inl h'
          · exact Or.inr (by simp [h'])
    · simp only [collapseGo, ha, if_false] at h
      rcases List.mem_cons.mp h with h | h
      · exact Or.inr (by simp [h])
      · rcases ih false h with h' | h'
        · exact Or.inl h'
        · exact Or.inr (by simp [h'])

theorem collapse_space {c : Char} :
    ∀ (l : List Char) (b : Bool), c ∈ collapseGo b l → isPySpace c = true → c = ' ' := by
  intro l
  induction l with
  | nil => intro b h; simp [collapseGo] at h
  | cons a t ih =>
    intro b h hsp
    by_cases ha : isPySpace a = true
    · cases b with
      | true =>
        simp only [collapseGo, ha, if_true] at h
        exact ih true h hsp
      | false =>
        simp only [collapseGo, ha, if_true] at h
        rcases List.mem_cons.mp h with h | h
        · exact h
        · exact ih true h hsp
    · simp only [collapseGo, ha, if_false] at h
      rcases List.mem_cons.mp h with h | h
      · subst h; simp [ha] at hsp
      · exact ih false h hsp

theorem collapse_headNS_true :
    ∀ l : List Char, headNS (collapseGo true l) = true := by
  intro l
  induction l with
  | nil => rfl
  | cons a t ih =>
    by_cases ha : isPySpace a = true
    · simp only [collapseGo, ha, if_true]
      exact ih
    · simp only [collapseGo, ha]
      simp [headNS, ha]

theorem sepOK_split {a b : Char} {l : List Char}
    (h : sepOK (a :: b :: l) = true) :
    (!(isPySpace a && isPySpace b)) = true ∧ sepOK (b :: l) = true := by
  simpa [sepOK] using h

theorem sepOK_tail {a : Char} {l : List Char}
    (h : sepOK (a :: l) = true) : sepOK l = true := by
  cases l with
  | nil => rfl
  | cons b t => exact (sepOK_split h).2

theorem sepOK_cons_headNS {a : Char} {l : List Char}
    (h1 : headNS l = true) (h2 : sepOK l = true) : sepOK (a :: l) = true := by
  cases l with
  | nil => rfl
  | cons b t =>
    have hb : isPySpace b = false := by simpa [headNS] using h1
    simp [sepOK, hb, h2]

theorem sepOK_cons_left {a : Char} {l : List Char}
    (ha : isPySpace a = false) (h2 : sepOK l = true) : sepOK (a :: l) = true := by
  cases l with
  | nil => rfl
  | cons b t => simp [sepOK, ha, h2]

theorem collapse_sepOK :
    ∀ (l : List Char) (b : Bool), sepOK (collapseGo b l) = true := by
  intro l
  induction l with
  | nil => intro b; rfl
  | cons a t ih =>
    intro b
    by_cases ha : isPySpace a = true
    · cases b with
      | true =>
        simp only [collapseGo, ha, if_true]
        exact ih true
      | false =>
        simp only [collapseGo, ha, if_true]
        exact sepOK_cons_headNS (collapse_headNS_true t) (ih true)
    · simp only [collapseGo, ha]
      exact sepOK_cons_left (by simp [ha]) (ih false)

theorem collapse_id {l : List Char}
    (h1 : ∀ c ∈ l, isPySpace c = true → c = ' ')
    (h2 : sepOK l = true) :
    collapseGo false l = l ∧ (headNS l = true → collapseGo true l = l) := by
  induction l with
  | nil => exact ⟨rfl, fun _ => rfl⟩
  | cons a t ih =>
    have h1t : ∀ c ∈ t, isPySpace c = true → c = ' ' :=
      fun c hc => h1 c (by simp [hc])
    have h2t : sepOK t = true := sepOK_tail h2
    have iht := ih h1t h2t
    by_cases ha : isPySpace a = true
    · have haEq : a = ' ' := h1 a (by simp) ha
      have htNS : headNS t = true := by
        cases t with
        | nil => rfl
        | cons b u =>
          have hs := (sepOK_split h2).1
          simp only [headNS]
          by_contra hb'
          simp only [Bool.not_eq_true, Bool.not_eq_false] at hb'
          simp [ha, hb'] at hs
      constructor
      · simp only [collapseGo, ha, if_true]
        rw [iht.2 htNS, haEq]
        simp
      · intro hh
        simp [headNS, ha] at hh
    · constructor
      · simp only [collapseGo, ha, if_false]
        rw [iht.1]
        simp [ha]
      · intro _
        simp only [collapseGo, ha, if_false]
        rw [iht.1]
        simp [ha]

theorem mem_stripLeft_subset {l : List Char} {c : Char}
    (h : c ∈ stripLeft l) : c ∈ l := by
  induction l with
  | nil => simpa [stripLeft] using h
  | cons a t ih =>
    by_cases ha : isPySpace a = true
    · simp only [stripLeft, List.dropWhile_cons, ha, if_true] at h
      exact by simp [ih h]
    · simp only [stripLeft, List.dropWhile_cons, ha] at h
      simpa using h

theorem headNS_stripLeft (l : List Char) : headNS (stripLeft l) = true := by
  induction l with
  | nil => rfl
  | cons a t ih =>
    by_cases ha : isPySpace a = true
    · simpa [stripLeft, List.dropWhile_cons, ha] using ih
    · simp [stripLeft, List.dropWhile_cons, ha, headNS]

theorem stripLeft_id {l : List Char} (h : headNS l = true) : stripLeft l = l := by
  cases l with
  | nil => rfl
  | cons a t =>
    have ha : isPySpace a = false := by simpa [headNS] using h
    simp [stripLeft, List.dropWhile_cons, ha]

theorem sepOK_stripLeft {l : List Char} (h : sepOK l = true) :
    sepOK (stripLeft l) = true := by
  induction l with
  | nil => exact h
  | cons a t ih =>
    by_cases ha : isPySpace a = true
    · simpa [stripLeft, List.dropWhile_cons, ha] using ih (sepOK_tail h)
    · simpa [stripLeft, List.dropWhile_cons, ha] using h

theorem mem_stripRight_subset {l : List Char} {c : Char}
    (h : c ∈ stripRight l) : c ∈ l := by
  induction l with
  | nil => simpa [stripRight] using h
  | cons a t ih =>
    simp only [stripRight] at h
    by_cases hc : ((stripRight t).isEmpty && isPySpace a) = true
    · simp [hc] at h
    · simp only [hc, if_false] at h
      rcases List.mem_cons.mp h with h | h
      · simp [h]
      · simp [ih h]

theorem lastNS_stripRight (l : List Char) : lastNS (stripRight l) = true := by
  induction l with
  | nil => rfl
  | cons a t ih =>
    simp only [stripRight]
    by_cases hc : (stripRight t).isEmpty && isPySpace a
    · simp [hc, lastNS]
    · simp only [hc, if_false]
      cases hr : stripRight t with
      | nil =>
        have ha : isPySpace a = false := by
          by_contra ha'
          simp only [Bool.not_eq_false] at ha'
          simp [hr, ha'] at hc
        simp [lastNS, ha]
      | cons b u =>
        rw [hr] at ih
        simpa [lastNS] using ih

theorem stripRight_id {l : List Char} (h : lastNS l = true) : stripRight l = l := by
  induction l with
  | nil => rfl
  | cons a t ih =>
    cases t with
    | nil =>
      have ha : isPySpace a = false := by simpa [lastNS] using h
      simp [stripRight, ha]
    | cons b u =>
      have ht : lastNS (b :: u) = true := by simpa [lastNS] using h
      have hr : stripRight (b :: u) = b :: u := ih ht
      have hstep : stripRight (a :: b :: u) =
          if (stripRight (b :: u)).isEmpty && isPySpace a then []
          else a :: stripRight (b :: u) := rfl
      rw [hstep, hr]
      simp

theorem headNS_stripRight {l : List Char} (h : headNS l = true) :
    headNS (stripRight l) = true := by
  cases l with
  | nil => rfl
  | cons a t =>
    simp only [stripRight]
    by_cases hc : (stripRight t).isEmpty && isPySpace a
    · simp [hc, headNS]
    · simpa [hc, headNS] using h

theorem sepOK_append_left : ∀ {l₁ l₂ : List Char}, sepOK (l₁ ++ l₂) = true → sepOK l₁ = true := by
  intro l₁
  induction l₁ with
  | nil => intro l₂ _; rfl
  | cons a t ih =>
    intro l₂ h
    cases t with
    | nil => rfl
    | cons b u =>
      have h' : sepOK (a :: b :: (u ++ l₂)) = true := by simpa using h
      have hab := (sepOK_split h').1
      have hrest : sepOK (b :: u) = true := ih (sepOK_split h').2
      show (!(isPySpace a && isPySpace b) && sepOK (b :: u)) = true
      rw [hab, hrest]
      rfl

theorem stripRight_append (l : List Char) : ∃ t, stripRight l ++ t = l := by
  induction l with
  | nil => exact ⟨[], rfl⟩
  | cons a t ih =>
    rcases ih with ⟨r, hr⟩
    simp only [stripRight]
    by_cases hc : (stripRight t).isEmpty && isPySpace a
    · exact ⟨a :: t, by simp [hc]⟩
    · exact ⟨r, by simp [hc, hr]⟩

theorem sepOK_stripRight {l : List Char} (h : sepOK l = true) :
    sepOK (stripRight l) = true := by
  rcases stripRight_append l with ⟨t, ht⟩
  exact sepOK_append_left (by rw [ht]; exact h)

theorem pyStripList_headNS (l : List Char) : headNS (pyStripList l) = true :=
  headNS_stripRight (headNS_stripLeft l)

theorem pyStripList_lastNS (l : List Char) : lastNS (pyStripList l) = true :=
  lastNS_stripRight (stripLeft l)

theorem pyStripList_id {l : List Char}
    (h1 : headNS l = true) (h2 : lastNS l = true) : pyStripList l = l := by
  unfold pyStripList
  rw [stripLeft_id h1, stripRight_id h2]

theorem mem_pyStripList_subset {l : List Char} {c : Char}
    (h : c ∈ pyStripList l) : c ∈ l :=
  mem_stripLeft_subset (mem_stripRight_subset h)

theorem sepOK_pyStripList {l : List Char} (h : sepOK l = true) :
    sepOK (pyStripList l) = true :=
  sepOK_stripRight (sepOK_stripLeft h)

/-- Key canonicity statement: a normalized character list is fixed by
every stage of the normalization pipeline. -/
theorem normList_idem (l : List Char) : normList (normList l) = normList l := by
  have memM : ∀ c ∈ normList l, c = ' ' ∨ c ∈ stripZW (l.map mapChar) := by
    intro c hc
    exact collapse_mem _ false (mem_pyStripList_subset hc)
  have f1 : ∀ c ∈ normList l, mapChar c = c := by
    intro c hc
    rcases memM c hc with h | h
    · rw [h]; decide
    · exact mem_map_fixed (mem_stripZW_subset h)
  have f2 : ∀ c ∈ normList l, (!isZW c) = true := by
    intro c hc
    rcases memM c hc with h | h
    · rw [h]; decide
    · simp [mem_stripZW_noZW h]
  have f3 : ∀ c ∈ normList l, isPySpace c = true → c = ' ' := by
    intro c hc hsp
    exact collapse_space _ false (mem_pyStripList_subset hc) hsp
  have f4 : sepOK (normList l) = true :=
    sepOK_pyStripList (collapse_sepOK _ false)
  show pyStripList (collapseWS (stripZW ((normList l).map mapChar))) = normList l
  have e1 : (normList l).map mapChar = normList l := listMapId f1
  have e2 : stripZW (normList l) = normList l := listFilterId f2
  rw [e1, e2]
  have hco : collapseWS (normList l) = normList l := (collapse_id f3 f4).1
  rw [hco]
  exact pyStripList_id (pyStripList_headNS _) (pyStripList_lastNS _)

/-- C9: the text normalizer is idempotent.  The inner `normalize`
returns a string, on which `pd.isna` is false, so the outer call reduces
to the string pipeline. -/
theorem normalize_idempotent_C9 (x : Value) :
    valNormalize (vStr (valNormalize x)) = valNormalize x := by
  cases x with
  | vNone =>
    show normStr "" = ""
    rfl
  | vNum q =>
    show normStr (normStr (pyNumStr q)) = normStr (pyNumStr q)
    unfold normStr
    exact congrArg String.mk (normList_idem _)
  | vStr s =>
    show normStr (normStr s) = normStr s
    unfold normStr
    exact congrArg String.mk (normList_idem _)

/-! ## Emptiness and numeric parsing facts -/

theorem stripRight_eq_nil_allSpace {l : List Char} (h : stripRight l = []) :
    ∀ c ∈ l, isPySpace c = true := by
  induction l with
  | nil => simp
  | cons a t ih =>
    by_cases hc : ((stripRight t).isEmpty && isPySpace a) = true
    · intro c hcmem
      have h2 := (Bool.and_eq_true _ _).mp hc
      have hst : stripRight t = [] := by
        cases hst : stripRight t with
        | nil => rfl
        | cons x y => rw [hst] at h2; simp [List.isEmpty] at h2
      rcases List.mem_cons.mp hcmem with h' | h'
      · subst h'; exact h2.2
      · exact ih hst c h'
    · exfalso
      have : stripRight (a :: t) = a :: stripRight t := by
        simp only [stripRight]
        rw [if_neg (by simpa using hc)]
      rw [this] at h
      simp at h

theorem stripLeft_allSpace {l : List Char} (h : ∀ c ∈ l, isPySpace c = true) :
    stripLeft l = [] := by
  induction l with
  | nil => rfl
  | cons a t ih =>
    have ha : isPySpace a = true := h a (by simp)
    simp only [stripLeft, List.dropWhile_cons, ha, if_true]
    exact ih (fun c hc => h c (by simp [hc]))

theorem pyStripList_nil_of_allSpace {l : List Char}
    (h : ∀ c ∈ l, isPySpace c = true) : pyStripList l = [] := by
  unfold pyStripList
  rw [stripLeft_allSpace h]
  rfl

theorem allSpace_of_pyStripList_nil {l : List Char}
    (h : pyStripList l = []) : ∀ c ∈ l, isPySpace c = true := by
  intro c hc
  have hdecomp : l.takeWhile isPySpace ++ l.dropWhile isPySpace = l :=
    List.takeWhile_append_dropWhile isPySpace l
  rw [← hdecomp] at hc
  rcases List.mem_append.mp hc with h' | h'
  · exact List.mem_takeWhile_imp h'
  · exact stripRight_eq_nil_allSpace h c h'

theorem pyFloat_allSpace {s : String}
    (h : ∀ c ∈ s.data, isPySpace c = true) : pyFloat s = none := by
  unfold pyFloat
  rw [pyStripList_nil_of_allSpace h]
  rfl

theorem isEmpty_toNumeric_zero {v : Value}
    (h : isEmptyVal v = true) : toNumericVal v = 0 := by
  cases v with
  | vNone => rfl
  | vNum q => simp [isEmptyVal] at h
  | vStr s =>
    have hstrip : pyStripList s.data = [] := by
      have : pyStrip s = "" := by simpa [isEmptyVal] using h
      have := congrArg String.data this
      simpa [pyStrip] using this
    have hall : ∀ c ∈ s.data, isPySpace c = true := allSpace_of_pyStripList_nil hstrip
    have hsub : ∀ c ∈ (stripSepsSpace s).data, isPySpace c = true := by
      intro c hc
      have hc' : c ∈ s.data.filter (fun c => c != ',' && c != '٬' && c != ' ') := hc
      exact hall c (List.mem_filter.mp hc').1
    simp [toNumericVal, pyFloat_allSpace hsub]

theorem isEmpty_isNumeric_false {v : Value}
    (h : isEmptyVal v = true) : isNumericVal v = false := by
  cases v with
  | vNone => rfl
  | vNum q => simp [isEmptyVal] at h
  | vStr s =>
    have hstrip : pyStripList s.data = [] := by
      have : pyStrip s = "" := by simpa [isEmptyVal] using h
      have := congrArg String.data this
      simpa [pyStrip] using this
    have hall : ∀ c ∈ s.data, isPySpace c = true := allSpace_of_pyStripList_nil hstrip
    have hsub : ∀ c ∈ (stripSeps s).data, isPySpace c = true := by
      intro c hc
      have hc' : c ∈ s.data.filter (fun c => c != ',' && c != '٬') := hc
      exact hall c (List.mem_filter.mp hc').1
    simp [isNumericVal, pyFloat_allSpace hsub]

/-! ## Claim C1: the comparator decision procedure -/

/-- C1 counterexample.  The claim defines "empty" as "null, or text
normalizing to the empty string".  The one-character ZWNJ string
normalizes to the empty string (and `vNone` is null), so under the claim
the pair is empty/empty and the result must be a match; the code instead
tests `str(value).strip() == ""`, ZWNJ is not Python whitespace, and
`compare` returns a non-match. -/
theorem compare_empty_counterexample_C1 :
    valNormalize (vStr "‌") = ""
  ∧ pdIsna vNone = true
  ∧ compareVals (vStr "‌") vNone 0.01 = (false, none) :=
  ⟨by decide, rfl, by decide⟩

/-- C1 amended: the decision procedure of `ValueComparator.compare`, in
order, for every pair of cell values and non-negative tolerance, with
"empty" meaning null or text whose whitespace-trimmed form is empty (the
code's predicate): both empty gives Match; exactly one empty with a
numeric side gives a non-match carrying the difference computed against
zero for the empty side; both numeric gives Match exactly when the
absolute difference is within tolerance and otherwise carries the signed
difference; otherwise Match exactly when the normalized texts are equal.
The claim's concrete instances are included. -/
theorem compare_decision_C1 (v1 v2 : Value) (tol : ℚ) (htol : 0 ≤ tol) :
    (isEmptyVal v1 = true → isEmptyVal v2 = true →
        compareVals v1 v2 tol = (true, none))
  ∧ (isEmptyVal v1 ≠ isEmptyVal v2 →
        ((isNumericVal v1 = true ∨ isNumericVal v2 = true) →
            compareVals v1 v2 tol =
              (false, some (toNumericVal v1 - toNumericVal v2))
          ∧ (isEmptyVal v1 = true → toNumericVal v1 = 0)
          ∧ (isEmptyVal v2 = true → toNumericVal v2 = 0))
      ∧ (isNumericVal v1 = false → isNumericVal v2 = false →
            compareVals v1 v2 tol = (false, none)))
  ∧ (isEmptyVal v1 = false → isEmptyVal v2 = false →
        (isNumericVal v1 = true → isNumericVal v2 = true →
            (|toNumericVal v1 - toNumericVal v2| ≤ tol →
                compareVals v1 v2 tol = (true, none))
          ∧ (¬ |toNumericVal v1 - toNumericVal v2| ≤ tol →
                compareVals v1 v2 tol =
                  (false, some (toNumericVal v1 - toNumericVal v2))))
      ∧ (¬(isNumericVal v1 = true ∧ isNumericVal v2 = true) →
            ((compareVals v1 v2 tol).1 = true ↔
                valNormalize v1 = valNormalize v2)
          ∧ (compareVals v1 v2 tol).2 = none))
  ∧ compareVals (vNum 100) (vNum 100.005) 0.01 = (true, none)
  ∧ compareVals (vNum 100) (vNum 101) 0.01 = (false, some (-1)) := by
  refine ⟨?_, ?_, ?_, ?_, ?_⟩
  · intro h1 h2
    simp [compareVals, h1, h2]
  · intro hne
    have hnot : (isEmptyVal v1 && isEmptyVal v2) = false := by
      cases h1 : isEmptyVal v1 <;> cases h2 : isEmptyVal v2 <;> simp_all
    have hb : (isEmptyVal v1 != isEmptyVal v2) = true := by
      cases h1 : isEmptyVal v1 <;> cases h2 : isEmptyVal v2 <;> simp_all
    constructor
    · intro hnum
      refine ⟨?_, fun h => isEmpty_toNumeric_zero h, fun h => isEmpty_toNumeric_zero h⟩
      have hor : (isNumericVal v1 || isNumericVal v2) = true := by
        rcases hnum with h | h <;> simp [h]
      simp [compareVals, hnot, hb, hor]
    · intro hn1 hn2
      simp [compareVals, hnot, hb, hn1, hn2]
  · intro h1 h2
    constructor
    · intro hn1 hn2
      constructor
      · intro hle
        simp [compareVals, h1, h2, hn1, hn2, hle]
      · intro hgt
        simp [compareVals, h1, h2, hn1, hn2, hgt]
    · intro hnn
      have hand : (isNumericVal v1 && isNumericVal v2) = false := by
        cases hh1 : isNumericVal v1 <;> cases hh2 : isNumericVal v2 <;> simp_all
      constructor
      · simp [compareVals, h1, h2, hand]
      · simp [compareVals, h1, h2, hand]
  · simp only [compareVals, isEmptyVal, isNumericVal, toNumericVal]
    norm_num [abs_le]
  · simp only [compareVals, isEmptyVal, isNumericVal, toNumericVal]
    norm_num [abs_le]

/-- Witness for `compare_decision_C1` at a concrete input: a null value
against whitespace-only text, both empty, compares as Match. -/
theorem compare_decision_C1_witness :
    compareVals vNone (vStr " ") 0.01 = (true, none) :=
  (compare_decision_C1 vNone (vStr " ") 0.01 (by norm_num)).1 (by decide) (by decide)

/-! ## Claim C2: no numeric interpretation yields zero, not null -/

theorem takeWhile_nil_noDigit {l : List Char}
    (h : ∀ c ∈ l, isDigitX c = false) : l.takeWhile isDigitX = [] := by
  cases l with
  | nil => rfl
  | cons a t => simp [List.takeWhile_cons, h a (by simp)]

theorem dropWhile_self_noDigit {l : List Char}
    (h : ∀ c ∈ l, isDigitX c = false) : l.dropWhile isDigitX = l := by
  cases l with
  | nil => rfl
  | cons a t => simp [List.dropWhile_cons, h a (by simp)]

theorem parseBody_noDigit {l : List Char}
    (h : ∀ c ∈ l, isDigitX c = false) : parseBody l = none := by
  have hip := takeWhile_nil_noDigit h
  have hrest := dropWhile_self_noDigit h
  simp only [parseBody, hip, hrest]
  cases l with
  | nil => rfl
  | cons a t =>
    by_cases ha : a == '.'
    · have hfp : t.takeWhile isDigitX = [] :=
        takeWhile_nil_noDigit (fun c hc => h c (by simp [hc]))
      simp [ha, hfp]
    · simp [ha]

theorem parseSign_snd_noDigit {l : List Char}
    (h : ∀ c ∈ l, isDigitX c = false) : ∀ c ∈ (parseSign l).2, isDigitX c = false := by
  cases l with
  | nil => simp [parseSign]
  | cons a t =>
    by_cases h1 : a == '-'
    · simpa [parseSign, h1] using fun c hc => h c (by simp [hc])
    · by_cases h2 : a == '+'
      · simpa [parseSign, h1, h2] using fun c hc => h c (by simp [hc])
      · simpa [parseSign, h1, h2] using h

theorem pyFloat_noDigit {s : String}
    (h : ∀ c ∈ s.data, isDigitX c = false) : pyFloat s = none := by
  have hcore : ∀ c ∈ pyStripList s.data, isDigitX c = false :=
    fun c hc => h c (mem_pyStripList_subset hc)
  have hbody : parseBody (parseSign (pyStripList s.data)).2 = none :=
    parseBody_noDigit (parseSign_snd_noDigit hcore)
  simp only [pyFloat, hbody]

theorem matchNumAt_noDigit {l : List Char}
    (h : ∀ c ∈ l, isDigitX c = false) : matchNumAt l = none := by
  have hsnd := parseSign_snd_noDigit h
  have hip := takeWhile_nil_noDigit hsnd
  have hrest := dropWhile_self_noDigit hsnd
  simp only [matchNumAt, hip, hrest]
  cases hp : (parseSign l).2 with
  | nil => rfl
  | cons a t =>
    by_cases ha : a == '.'
    · have hfp : t.takeWhile isDigitX = [] :=
        takeWhile_nil_noDigit (fun c hc => hsnd c (by simp [hp, hc]))
      simp [ha, hfp]
    · simp [ha]

theorem regexSearchNum_noDigit {l : List Char}
    (h : ∀ c ∈ l, isDigitX c = false) : regexSearchNum l = none := by
  induction l with
  | nil => rfl
  | cons a t ih =>
    have hm : matchNumAt (a :: t) = none := matchNumAt_noDigit h
    simp only [regexSearchNum, hm]
    exact ih (fun c hc => h c (by simp [hc]))

theorem perDigitPairs_digits : ∀ p ∈ persianDigitPairs, isDigitX p.1 = true := by decide

theorem perDigitChar_noDigit {c : Char}
    (h : isDigitX c = false) : perDigitChar c = c := by
  cases hf : persianDigitPairs.find? (fun p => p.1 == c) with
  | none => simp [perDigitChar, hf]
  | some p =>
    exfalso
    have hmem : p ∈ persianDigitPairs := List.mem_of_find?_eq_some hf
    have heq := List.find?_some hf
    have hpc : p.1 = c := by simpa using heq
    have hdig := perDigitPairs_digits p hmem
    rw [hpc] at hdig
    rw [hdig] at h
    simp at h

theorem mem_takeWhile_mem {p : Char → Bool} {l : List Char} {c : Char}
    (h : c ∈ l.takeWhile p) : c ∈ l := by
  induction l with
  | nil => simpa using h
  | cons a t ih =>
    rw [List.takeWhile_cons] at h
    by_cases ha : p a = true
    · rw [if_pos ha] at h
      rcases List.mem_cons.mp h with h' | h'
      · simp [h']
      · simp [ih h']
    · rw [if_neg ha] at h
      simp at h

/-- C2 counterexample: every numeric-extraction function in the
repository returns `0.0`, never null, on a value with no numeric
interpretation, so a parsed zero (a numeric cell holding 0, or the text
"0", for which `is_numeric` answers true) cannot be told apart from a
non-number through the returned value. -/
theorem to_number_zero_counterexample_C2 :
    isNumericVal (vStr "abc") = false
  ∧ toNumericVal (vStr "abc") = 0
  ∧ isNumericVal (vStr "0") = true
  ∧ toNumericVal (vStr "abc") = toNumericVal (vNum 0)
  ∧ cleanNumeric (vStr "abc") = 0
  ∧ cleanNumericValue (vStr "abc") = 0 := by
  refine ⟨by decide, by decide, by decide, by decide, by decide, by decide⟩

/-- C2 amended: when no numeric interpretation exists, the extraction
functions return `0.0` rather than null — `to_numeric` whenever the
cleaned text fails to parse, `clean_numeric` whenever `float` fails, and
`clean_numeric_value` on any digit-free text — so zero and
not-a-number are indistinguishable from the returned value alone. -/
theorem to_number_returns_zero_C2 :
    (∀ s : String, pyFloat (stripSepsSpace s) = none → toNumericVal (vStr s) = 0)
  ∧ (∀ s : String, pyFloat s = none → cleanNumeric (vStr s) = 0)
  ∧ (∀ s : String, (∀ c ∈ s.data, isDigitX c = false) →
      cleanNumericValue (vStr s) = 0)
  ∧ toNumericVal (vStr "abc") = toNumericVal (vNum 0) := by
  refine ⟨?_, ?_, ?_, by decide⟩
  · intro s h
    simp [toNumericVal, h]
  · intro s h
    simp [cleanNumeric, h]
  · intro s h
    have hstrip : ∀ c ∈ (pyStrip s).data, isDigitX c = false :=
      fun c hc => h c (mem_pyStripList_subset hc)
    by_cases hd : pyStrip s = "" ∨ pyStrip s = "-" ∨ pyStrip s = "—"
    · simp [cleanNumericValue, hd]
    · have ht1 : ∀ c ∈ (persianToEnglish (pyStrip s)).data, isDigitX c = false := by
        intro c hc
        rcases List.mem_map.mp hc with ⟨d, hd', rfl⟩
        have hdnd : isDigitX d = false := hstrip d hd'
        rw [perDigitChar_noDigit hdnd]
        exact hdnd
      have ht2 : ∀ c ∈ ((persianToEnglish (pyStrip s)).data.filter
          (fun c => c != ',')).filter (fun c => c != ' '), isDigitX c = false := by
        intro c hc
        exact ht1 c (List.mem_filter.mp (List.mem_filter.mp hc).1).1
      simp only [cleanNumericValue, hd, if_false]
      set t2 : List Char := ((persianToEnglish (pyStrip s)).data.filter
        (fun c => c != ',')).filter (fun c => c != ' ') with ht2eq
      by_cases hsl : (t2.contains '/' &&
          !(pyIsDigitStr (t2.filter (fun c => c != '/' && c != '.' && c != '-')))) = true
      · rw [if_pos hsl]
        have hpre : pyFloat ⟨t2.takeWhile (fun c => c != '/')⟩ = none := by
          apply pyFloat_noDigit
          intro c hc
          exact ht2 c (mem_takeWhile_mem hc)
        simp [hpre]
      · rw [if_neg hsl]
        simp [regexSearchNum_noDigit ht2]

/-- Witness for `to_number_returns_zero_C2` at concrete inputs. -/
theorem to_number_returns_zero_C2_witness :
    toNumericVal (vStr "xy") = 0 ∧ cleanNumericValue (vStr "xy") = 0 :=
  ⟨to_number_returns_zero_C2.1 "xy" (by decide),
   to_number_returns_zero_C2.2.2.1 "xy" (by decide)⟩

theorem mem_dictInsert {d : Dict} {k v : String} {p : String × String}
    (h : p ∈ dictInsert d k v) : p = (k, v) ∨ p ∈ d := by
  induction d with
  | nil => simpa [dictInsert] using h
  | cons q d ih =>
    by_cases hq : (q.1 == k) = true
    · simp only [dictInsert, hq, if_true] at h
      rcases List.mem_cons.mp h with h' | h'
      · exact Or.inl h'
      · exact Or.inr (by simp [h'])
    · simp only [dictInsert, hq, if_false] at h
      rcases List.mem_cons.mp h with h' | h'
      · exact Or.inr (by simp [h'])
      · rcases ih h' with h'' | h''
        · exact Or.inl h''
        · exact Or.inr (by simp [h''])

theorem mem_keys_dictInsert {d : Dict} {k v : String} {a : String}
    (h : a ∈ (dictInsert d k v).map (fun p => p.1)) :
    a = k ∨ a ∈ d.map (fun p => p.1) := by
  rcases List.mem_map.mp h with ⟨p, hp, rfl⟩
  rcases mem_dictInsert hp with h' | h'
  · subst h'; exact Or.inl rfl
  · exact Or.inr (List.mem_map.mpr ⟨p, h', rfl⟩)

theorem keysND_dictInsert {d : Dict} {k v : String}
    (h : keysND d) : keysND (dictInsert d k v) := by
  induction d with
  | nil => simp [dictInsert, keysND]
  | cons q d ih =>
    have hq2 : keysND d := by
      simpa [keysND] using (List.nodup_cons.mp (by simpa [keysND] using h)).2
    have hq1 : q.1 ∉ d.map (fun p => p.1) :=
      (List.nodup_cons.mp (by simpa [keysND] using h)).1
    by_cases hqk : (q.1 == k) = true
    · have hqk' : q.1 = k := by simpa using hqk
      simp only [dictInsert, hqk, if_true]
      simp only [keysND, List.map_cons, List.nodup_cons]
      exact ⟨by rw [← hqk']; exact hq1, by simpa [keysND] using hq2⟩
    · have hqk' : q.1 ≠ k := by simpa using hqk
      have hmain : keysND (dictInsert d k v) := ih hq2
      simp only [dictInsert, hqk, if_false]
      show (List.map (fun p => p.1) (q :: dictInsert d k v)).Nodup
      rw [List.map_cons]
      refine List.nodup_cons.mpr ⟨?_, hmain⟩
      intro hmem
      rcases mem_keys_dictInsert hmem with h' | h'
      · exact hqk' h'
      · exact hq1 h' 

theorem dictLookup_mem {d : Dict} {k v : String}
    (h : dictLookup d k = some v) : (k, v) ∈ d := by
  induction d with
  | nil => simp [dictLookup] at h
  | cons q d ih =>
    by_cases hq : (q.1 == k) = true
    · simp only [dictLookup, hq, if_true, Option.some.injEq] at h
      have hq' : q.1 = k := by simpa using hq
      have : q = (k, v) := by
        cases q; simp_all
      simp [this]
    · simp only [dictLookup, hq, if_false] at h
      simp [ih h]

theorem dictLookup_insert_self {d : Dict} {k v : String} :
    dictLookup (dictInsert d k v) k = some v := by
  induction d with
  | nil => simp [dictInsert, dictLookup]
  | cons q d ih =>
    by_cases hq : (q.1 == k) = true
    · simp [dictInsert, hq, dictLookup]
    · simp [dictInsert, hq, dictLookup, ih]

theorem dictLookup_insert_ne {d : Dict} {k v k' : String}
    (h : k' ≠ k) : dictLookup (dictInsert d k v) k' = dictLookup d k' := by
  induction d with
  | nil =>
    simp only [dictInsert, dictLookup]
    rw [if_neg (by simpa using fun hh => h hh.symm)]
  | cons q d ih =>
    by_cases hq : (q.1 == k) = true
    · have hq' : q.1 = k := by simpa using hq
      simp only [dictInsert, hq, if_true, dictLookup]
      rw [if_neg (by simpa using fun hh => h hh.symm), if_neg (by rw [hq']; simpa using fun hh => h hh.symm)]
    · simp only [dictInsert, hq, if_false, dictLookup]
      by_cases hq2 : (q.1 == k') = true
      · rw [if_pos hq2, if_pos hq2]
      · rw [if_neg hq2, if_neg hq2]
        exact ih

theorem mem_dictDelete {d : Dict} {k : String} {p : String × String}
    (h : p ∈ dictDelete d k) : p ∈ d ∧ p.1 ≠ k := by
  have h' := List.mem_filter.mp h
  exact ⟨h'.1, by simpa using h'.2⟩

theorem valsInj_dictInsert {d : Dict} {k v : String}
    (h : valsInj d) (hfresh : ∀ p ∈ d, p.2 ≠ v) :
    valsInj (dictInsert d k v) := by
  intro p hp q hq hpq
  rcases mem_dictInsert hp with hp' | hp' <;> rcases mem_dictInsert hq with hq' | hq'
  · rw [hp', hq']
  · exfalso
    exact hfresh q hq' (by rw [← hpq, hp'])
  · exfalso
    exact hfresh p hp' (by rw [hpq, hq'])
  · exact h p hp' q hq' hpq

theorem valsInj_dictDelete {d : Dict} {k : String}
    (h : valsInj d) : valsInj (dictDelete d k) := by
  intro p hp q hq hpq
  exact h p (mem_dictDelete hp).1 q (mem_dictDelete hq).1 hpq

theorem keysND_dictDelete {d : Dict} {k : String}
    (h : keysND d) : keysND (dictDelete d k) := by
  have hsub : List.Sublist (dictDelete d k) d := List.filter_sublist d
  exact List.Nodup.sublist (List.Sublist.map (fun p => p.1) hsub) h

/-! ## buildDictBy facts -/

theorem buildDictBy_go_entry {f : String → String} :
    ∀ (cols : List String) (acc : Dict),
      (∀ p ∈ acc, p.1 = f p.2) →
      ∀ p ∈ cols.foldl (fun d c => dictInsert d (f c) c) acc, p.1 = f p.2 := by
  intro cols
  induction cols with
  | nil => intro acc hacc p hp; exact hacc p hp
  | cons a rest ih =>
    intro acc hacc p hp
    refine ih (dictInsert acc (f a) a) ?_ p hp
    intro q hq
    rcases mem_dictInsert hq with h' | h'
    · rw [h']
    · exact hacc q h'

theorem buildDictBy_entry {f : String → String} {cols : List String}
    {p : String × String} (h : p ∈ buildDictBy f cols) : p.1 = f p.2 :=
  buildDictBy_go_entry cols [] (by simp) p h

theorem buildDictBy_go_src {f : String → String} :
    ∀ (cols : List String) (acc : Dict),
      ∀ p ∈ cols.foldl (fun d c => dictInsert d (f c) c) acc,
        p.2 ∈ cols ∨ p ∈ acc := by
  intro cols
  induction cols with
  | nil => intro acc p hp; exact Or.inr hp
  | cons a rest ih =>
    intro acc p hp
    rcases ih (dictInsert acc (f a) a) p hp with h' | h'
    · exact Or.inl (by simp [h'])
    · rcases mem_dictInsert h' with h'' | h''
      · exact Or.inl (by simp [h''])
      · exact Or.inr h''

theorem buildDictBy_src {f : String → String} {cols : List String}
    {p : String × String} (h : p ∈ buildDictBy f cols) : p.2 ∈ cols := by
  rcases buildDictBy_go_src cols [] p h with h' | h'
  · exact h'
  · simp at h'

theorem keysND_buildDictBy {f : String → String} {cols : List String} :
    keysND (buildDictBy f cols) := by
  have go : ∀ (cs : List String) (acc : Dict), keysND acc →
      keysND (cs.foldl (fun d c => dictInsert d (f c) c) acc) := by
    intro cs
    induction cs with
    | nil => intro acc h; exact h
    | cons a rest ih => intro acc h; exact ih _ (keysND_dictInsert h)
  exact go cols [] (by simp [keysND])

theorem valsInj_buildDictBy {f : String → String} {cols : List String} :
    valsInj (buildDictBy f cols) := by
  intro p hp q hq hpq
  rw [buildDictBy_entry hp, buildDictBy_entry hq, hpq]

/-! ## extractOne facts -/

theorem extractOne_go {q : String} {scorer : String → String → Nat} :
    ∀ (keys : List String) (acc : Option (String × Nat)) (P : String → Prop),
      (∀ k ∈ keys, P k) →
      (∀ ks : String × Nat, acc = some ks → P ks.1 ∧ ks.2 = scorer q ks.1) →
      ∀ ks : String × Nat,
        keys.foldl (fun best k =>
          match best with
          | none => some (k, scorer q k)
          | some (bk, bs) => if scorer q k > bs then some (k, scorer q k) else some (bk, bs))
          acc = some ks →
        P ks.1 ∧ ks.2 = scorer q ks.1 := by
  intro keys
  induction keys with
  | nil => intro acc P hP hacc ks h; exact hacc ks h
  | cons a rest ih =>
    intro acc P hP hacc ks h
    refine ih _ P (fun k hk => hP k (by simp [hk])) ?_ ks h
    intro ks' hks'
    cases acc with
    | none =>
      simp only [Option.some.injEq] at hks'
      rw [← hks']
      exact ⟨hP a (by simp), rfl⟩
    | some b =>
      rcases b with ⟨bk, bs⟩
      by_cases hgt : scorer q a > bs
      · simp only [hgt, if_true, Option.some.injEq] at hks'
        rw [← hks']
        exact ⟨hP a (by simp), rfl⟩
      · simp only [hgt, if_false, Option.some.injEq] at hks'
        rw [← hks']
        exact hacc (bk, bs) rfl

theorem extractOne_mem {q k : String} {s : Nat} {keys : List String}
    {scorer : String → String → Nat}
    (h : extractOne q keys scorer = some (k, s)) :
    k ∈ keys ∧ s = scorer q k :=
  extractOne_go keys none (fun x => x ∈ keys) (fun _ hk => hk)
    (fun _ hks => by simp at hks) (k, s) h

/-! ## Invariants of the two mapping passes -/

theorem exactGo_inv {conN : Dict} (hconI : valsInj conN) :
    ∀ (todo : List (String × String)) (m : Dict) (u : List String),
      keysND m → valsInj m →
      (∀ p ∈ m, p.2 ∈ u) →
      (∀ x ∈ u, ∃ n, dictLookup conN n = some x ∧ n ∉ todo.map (fun p => p.1)) →
      (todo.map (fun p => p.1)).Nodup →
      (∀ p ∈ todo, normComp p.2 = p.1) →
      (∀ p ∈ m, normComp p.1 ∉ todo.map (fun p => p.1)) →
      keysND (exactGo conN (m, u) todo).1 ∧ valsInj (exactGo conN (m, u) todo).1 ∧
        (∀ p ∈ (exactGo conN (m, u) todo).1, p.2 ∈ (exactGo conN (m, u) todo).2) := by
  intro todo
  induction todo with
  | nil =>
    intro m u h1 h2 h3 _ _ _ _
    exact ⟨h1, h2, h3⟩
  | cons hd rest ih =>
    intro m u h1 h2 h3 h4 h5 h6 h7
    rcases hd with ⟨n, e⟩
    have hnodup : n ∉ rest.map (fun p => p.1) ∧ (rest.map (fun p => p.1)).Nodup :=
      List.nodup_cons.mp (by simpa using h5)
    cases hlk : dictLookup conN n with
    | none =>
      have hres : exactGo conN (m, u) ((n, e) :: rest) = exactGo conN (m, u) rest := by
        simp [exactGo, hlk]
      rw [hres]
      refine ih m u h1 h2 h3 ?_ hnodup.2 (fun p hp => h6 p (by simp [hp])) ?_
      · intro x hx
        rcases h4 x hx with ⟨n', hn', hnot⟩
        exact ⟨n', hn', fun hmem => hnot (by simp [hmem])⟩
      · intro p hp hmem
        exact h7 p hp (by simp [hmem])
    | some c =>
      have hcnotu : c ∉ u := by
        intro hcu
        rcases h4 c hcu with ⟨n', hn', hnot⟩
        have hmem1 : (n', c) ∈ conN := dictLookup_mem hn'
        have hmem2 : (n, c) ∈ conN := dictLookup_mem hlk
        have hnn : n' = n := hconI (n', c) hmem1 (n, c) hmem2 rfl
        exact hnot (by simp [hnn])
      have hfresh : ∀ p ∈ m, p.2 ≠ c := fun p hp hpc => hcnotu (hpc ▸ h3 p hp)
      have hres : exactGo conN (m, u) ((n, e) :: rest)
          = exactGo conN (dictInsert m e c, u ++ [c]) rest := by
        simp [exactGo, hlk]
      rw [hres]
      refine ih _ _ (keysND_dictInsert h1) (valsInj_dictInsert h2 hfresh) ?_ ?_
        hnodup.2 (fun p hp => h6 p (by simp [hp])) ?_
      · intro p hp
        rcases mem_dictInsert hp with h' | h'
        · rw [h']; simp
        · exact List.mem_append.mpr (Or.inl (h3 p h'))
      · intro x hx
        rcases List.mem_append.mp hx with hx' | hx'
        · rcases h4 x hx' with ⟨n', hn', hnot⟩
          exact ⟨n', hn', fun hmem => hnot (by simp [hmem])⟩
        · have hxc : x = c := by simpa using hx'
          subst hxc
          exact ⟨n, hlk, hnodup.1⟩
      · intro p hp hmem
        rcases mem_dictInsert hp with h' | h'
        · have hne : normComp e = n := h6 (n, e) (by simp)
          rw [h'] at hmem
          exact hnodup.1 (by simpa [hne] using hmem)
        · exact h7 p h' (by simp [hmem])

theorem fuzzyGo_inv {scorer : String → String → Nat} {θ : Nat} :
    ∀ (todo : List String) (m pool : Dict),
      keysND m → valsInj m → valsInj pool →
      (∀ q ∈ pool, ∀ p ∈ m, q.2 ≠ p.2) →
      keysND (fuzzyGo scorer θ (m, pool) todo) ∧
        valsInj (fuzzyGo scorer θ (m, pool) todo) := by
  intro todo
  induction todo with
  | nil => intro m pool h1 h2 _ _; exact ⟨h1, h2⟩
  | cons e rest ih =>
    intro m pool h1 h2 h3 h4
    cases hext : extractOne (normComp e) (pool.map (fun p => p.1)) scorer with
    | none =>
      have hres : fuzzyGo scorer θ (m, pool) (e :: rest)
          = fuzzyGo scorer θ (m, pool) rest := by
        simp [fuzzyGo, hext]
      rw [hres]; exact ih m pool h1 h2 h3 h4
    | some ks =>
      rcases ks with ⟨k, s⟩
      by_cases hθ : s ≥ θ
      · cases hpl : dictLookup pool k with
        | none =>
          have hres : fuzzyGo scorer θ (m, pool) (e :: rest)
              = fuzzyGo scorer θ (m, pool) rest := by
            simp [fuzzyGo, hext, hθ, hpl]
          rw [hres]; exact ih m pool h1 h2 h3 h4
        | some c =>
          have hkc : (k, c) ∈ pool := dictLookup_mem hpl
          have hfresh : ∀ p ∈ m, p.2 ≠ c :=
            fun p hp hpc => (h4 (k, c) hkc p hp) hpc.symm
          have hres : fuzzyGo scorer θ (m, pool) (e :: rest)
              = fuzzyGo scorer θ (dictInsert m e c, dictDelete pool k) rest := by
            simp [fuzzyGo, hext, hθ, hpl]
          rw [hres]
          refine ih _ _ (keysND_dictInsert h1) (valsInj_dictInsert h2 hfresh)
            (valsInj_dictDelete h3) ?_
          intro q hq p hp
          have hqpool := (mem_dictDelete hq).1
          have hqk := (mem_dictDelete hq).2
          rcases mem_dictInsert hp with h' | h'
          · rw [h']
            intro hqc
            exact hqk (h3 q hqpool (k, c) hkc hqc)
          · exact h4 q hqpool p h'
      · have hres : fuzzyGo scorer θ (m, pool) (e :: rest)
            = fuzzyGo scorer θ (m, pool) rest := by
          simp [fuzzyGo, hext, hθ]
        rw [hres]; exact ih m pool h1 h2 h3 h4

/-- C6: the mapping produced by `_build_mapping` (exact pass followed by
fuzzy pass) is injective for every pair of column-label lists, every
scorer and every threshold: its keys (employer labels) are pairwise
distinct, and two entries sharing a contractor label are the same
entry, so no label on either side is consumed by two different
mappings. -/
theorem column_mapping_injective_C6
    (empCols conCols : List String) (scorer : String → String → Nat) (θ : Nat) :
    keysND (buildMapping empCols conCols scorer θ)
  ∧ valsInj (buildMapping empCols conCols scorer θ) := by
  have hconI : valsInj (buildDictBy normComp conCols) := valsInj_buildDictBy
  have hex := exactGo_inv hconI (buildDictBy normComp empCols) [] []
    (by simp [keysND]) (by intro p hp; simp at hp) (by intro p hp; simp at hp)
    (by intro x hx; simp at hx) keysND_buildDictBy
    (fun p hp => (buildDictBy_entry hp).symm)
    (by intro p hp; simp at hp)
  obtain ⟨hk, hv, hvu⟩ := hex
  simp only [buildMapping]
  set conN := buildDictBy normComp conCols with hconNdef
  set empN := buildDictBy normComp empCols with hempNdef
  set ex := exactGo conN ([], []) empN with hexdef
  set uE := empCols.filter (fun c => (dictLookup ex.1 c).isNone) with huEdef
  set uC := conCols.filter (fun c => !(ex.2.contains c)) with huCdef
  by_cases hg : (uE.isEmpty || uC.isEmpty) = true
  · rw [if_pos hg]
    exact ⟨hk, hv⟩
  · rw [if_neg hg]
    refine fuzzyGo_inv uE ex.1 (buildDictBy normComp uC) hk hv valsInj_buildDictBy ?_
    intro q hq p hp
    have hquC : q.2 ∈ uC := buildDictBy_src hq
    have hqnot : q.2 ∉ ex.2 := by
      have h' : q.2 ∈ conCols ∧ q.2 ∉ ex.2 := by simpa [huCdef] using hquC
      exact h'.2
    intro hqp
    exact hqnot (hqp ▸ hvu p hp)

/-! ## Claim C5: exact-pass mapping of identically normalized labels -/

theorem buildDictBy_lookup_unique {f : String → String} :
    ∀ (cols : List String) (acc : Dict) (e : String),
      (∀ e' ∈ cols, f e' = f e → e' = e) →
      (dictLookup acc (f e) = some e ∨ (dictLookup acc (f e) = none ∧ e ∈ cols)) →
      dictLookup (cols.foldl (fun d c => dictInsert d (f c) c) acc) (f e) = some e := by
  intro cols
  induction cols with
  | nil =>
    intro acc e _ hd
    rcases hd with h | h
    · exact h
    · exact absurd h.2 (List.not_mem_nil e)
  | cons a rest ih =>
    intro acc e hu hd
    by_cases hae : a = e
    · subst hae
      exact ih _ a (fun e' he' hf => hu e' (by simp [he']) hf)
        (Or.inl dictLookup_insert_self)
    · have hfa : f a ≠ f e := fun hf => hae (hu a (by simp) hf)
      have hlk : dictLookup (dictInsert acc (f a) a) (f e) = dictLookup acc (f e) :=
        dictLookup_insert_ne (fun hh => hfa hh.symm)
      rcases hd with h | h
      · exact ih _ e (fun e' he' hf => hu e' (by simp [he']) hf)
          (Or.inl (by rw [hlk]; exact h))
      · have he : e ∈ rest := by
          rcases List.mem_cons.mp h.2 with h' | h'
          · exact absurd h'.symm hae
          · exact h'
        exact ih _ e (fun e' he' hf => hu e' (by simp [he']) hf)
          (Or.inr ⟨by rw [hlk]; exact h.1, he⟩)

theorem exactGo_lookup {conN : Dict} {n e c : String}
    (hc : dictLookup conN n = some c) (hne : normComp e = n) :
    ∀ (todo : List (String × String)) (m : Dict) (u : List String),
      (∀ p ∈ todo, normComp p.2 = p.1) →
      (((n, e) ∈ todo ∧ dictLookup m e = none) ∨ dictLookup m e = some c) →
      dictLookup (exactGo conN (m, u) todo).1 e = some c := by
  intro todo
  induction todo with
  | nil =>
    intro m u _ hd
    rcases hd with h | h
    · exact absurd h.1 (List.not_mem_nil _)
    · exact h
  | cons hd0 rest ih =>
    intro m u hprops hd
    rcases hd0 with ⟨n₁, e₁⟩
    have hn₁ : normComp e₁ = n₁ := hprops (n₁, e₁) (by simp)
    cases hlk : dictLookup conN n₁ with
    | none =>
      have hres : exactGo conN (m, u) ((n₁, e₁) :: rest) = exactGo conN (m, u) rest := by
        simp [exactGo, hlk]
      rw [hres]
      apply ih m u (fun p hp => hprops p (by simp [hp]))
      rcases hd with h | h
      · rcases List.mem_cons.mp h.1 with h' | h'
        · exfalso
          have hnn : n₁ = n := by
            have := congrArg Prod.fst h'
            simpa using this.symm
          rw [hnn, hc] at hlk
          exact Option.noConfusion hlk
        · exact Or.inl ⟨h', h.2⟩
      · exact Or.inr h
    | some c₁ =>
      have hres : exactGo conN (m, u) ((n₁, e₁) :: rest)
          = exactGo conN (dictInsert m e₁ c₁, u ++ [c₁]) rest := by
        simp [exactGo, hlk]
      rw [hres]
      apply ih _ _ (fun p hp => hprops p (by simp [hp]))
      by_cases he₁ : e₁ = e
      · subst he₁
        have hnn : n₁ = n := by rw [← hn₁, hne]
        have hcc : c₁ = c := by
          rw [hnn, hc] at hlk
          exact (Option.some.inj hlk).symm
        subst hcc
        exact Or.inr dictLookup_insert_self
      · have hlk2 : dictLookup (dictInsert m e₁ c₁) e = dictLookup m e :=
          dictLookup_insert_ne (fun hh => he₁ hh.symm)
        rcases hd with h | h
        · rcases List.mem_cons.mp h.1 with h' | h'
          · exfalso
            have : e = e₁ := by
              have := congrArg Prod.snd h'
              simpa using this
            exact he₁ this.symm
          · exact Or.inl ⟨h', by rw [hlk2]; exact h.2⟩
        · exact Or.inr (by rw [hlk2]; exact h)

theorem fuzzyGo_frozen {scorer : String → String → Nat} {θ : Nat} {e c : String} :
    ∀ (todo : List String) (m pool : Dict),
      e ∉ todo → dictLookup m e = some c →
      dictLookup (fuzzyGo scorer θ (m, pool) todo) e = some c := by
  intro todo
  induction todo with
  | nil => intro m pool _ h; exact h
  | cons e₁ rest ih =>
    intro m pool hnot h
    have hne : e ≠ e₁ := fun hh => hnot (by simp [hh])
    have hrest : e ∉ rest := fun hh => hnot (by simp [hh])
    cases hext : extractOne (normComp e₁) (pool.map (fun p => p.1)) scorer with
    | none =>
      have hres : fuzzyGo scorer θ (m, pool) (e₁ :: rest)
          = fuzzyGo scorer θ (m, pool) rest := by
        simp [fuzzyGo, hext]
      rw [hres]; exact ih m pool hrest h
    | some ks =>
      rcases ks with ⟨k, s⟩
      by_cases hθ : s ≥ θ
      · cases hpl : dictLookup pool k with
        | none =>
          have hres : fuzzyGo scorer θ (m, pool) (e₁ :: rest)
              = fuzzyGo scorer θ (m, pool) rest := by
            simp [fuzzyGo, hext, hθ, hpl]
          rw [hres]; exact ih m pool hrest h
        | some c' =>
          have hres : fuzzyGo scorer θ (m, pool) (e₁ :: rest)
              = fuzzyGo scorer θ (dictInsert m e₁ c', dictDelete pool k) rest := by
            simp [fuzzyGo, hext, hθ, hpl]
          rw [hres]
          refine ih _ _ hrest ?_
          rw [dictLookup_insert_ne hne]
          exact h
      · have hres : fuzzyGo scorer θ (m, pool) (e₁ :: rest)
            = fuzzyGo scorer θ (m, pool) rest := by
          simp [fuzzyGo, hext, hθ]
        rw [hres]; exact ih m pool hrest h

/-- C5 counterexample.  The employer labels "A B" and "AB" and the
contractor label "ab" all normalize (for matching) to "ab".  The
employer dict keeps only the last label for the shared key, so the exact
pass maps "AB" to "ab", and "A B" — although identical to "ab" after
normalization — ends up mapped to nothing at all (the fuzzy pass is
skipped because every contractor label is consumed).  The scorer is
irrelevant here and taken constant. -/
theorem exact_pass_counterexample_C5 :
    normComp "A B" = normComp "ab"
  ∧ "A B" ∈ (["A B", "AB"] : List String)
  ∧ "ab" ∈ (["ab"] : List String)
  ∧ buildMapping ["A B", "AB"] ["ab"] (fun _ _ => 0) 75 = [("AB", "ab")]
  ∧ dictLookup (buildMapping ["A B", "AB"] ["ab"] (fun _ _ => 0) 75) "A B" = none :=
  ⟨by decide, by decide, by decide, by decide, by decide⟩

/-- C5 amended: two labels identical after matching-normalization are
always mapped to each other in the exact pass, regardless of the fuzzy
scorer and threshold, PROVIDED each is the only label of its table with
that normalized form (the comprehension dicts keep one label per
normalized form, so duplicate forms shadow each other, as the
counterexample shows). -/
theorem exact_pass_maps_unique_C5
    (empCols conCols : List String) (scorer : String → String → Nat) (θ : Nat)
    (e c : String) (he : e ∈ empCols) (hc : c ∈ conCols)
    (hn : normComp e = normComp c)
    (hue : ∀ e' ∈ empCols, normComp e' = normComp e → e' = e)
    (huc : ∀ c' ∈ conCols, normComp c' = normComp c → c' = c) :
    dictLookup (buildMapping empCols conCols scorer θ) e = some c := by
  have hconlk : dictLookup (buildDictBy normComp conCols) (normComp c) = some c :=
    buildDictBy_lookup_unique conCols [] c huc (Or.inr ⟨rfl, hc⟩)
  have hconlk' : dictLookup (buildDictBy normComp conCols) (normComp e) = some c := by
    rw [hn]; exact hconlk
  have hemplk : dictLookup (buildDictBy normComp empCols) (normComp e) = some e :=
    buildDictBy_lookup_unique empCols [] e hue (Or.inr ⟨rfl, he⟩)
  have hempmem : (normComp e, e) ∈ buildDictBy normComp empCols := dictLookup_mem hemplk
  have hmap : dictLookup (exactGo (buildDictBy normComp conCols) ([], [])
      (buildDictBy normComp empCols)).1 e = some c :=
    exactGo_lookup hconlk' rfl (buildDictBy normComp empCols) [] []
      (fun p hp => (buildDictBy_entry hp).symm)
      (Or.inl ⟨hempmem, rfl⟩)
  simp only [buildMapping]
  set conN := buildDictBy normComp conCols with hconNdef
  set empN := buildDictBy normComp empCols with hempNdef
  set ex := exactGo conN ([], []) empN with hexdef
  set uE := empCols.filter (fun c => (dictLookup ex.1 c).isNone) with huEdef
  set uC := conCols.filter (fun c => !(ex.2.contains c)) with huCdef
  by_cases hg : (uE.isEmpty || uC.isEmpty) = true
  · rw [if_pos hg]
    exact hmap
  · rw [if_neg hg]
    apply fuzzyGo_frozen
    · intro hmem
      have h' : e ∈ empCols ∧ (dictLookup ex.1 e).isNone = true := by
        simpa [huEdef] using hmem
      rw [hmap] at h'
      simp at h'
    · exact hmap

/-- Witness for `exact_pass_maps_unique_C5` at a concrete input. -/
theorem exact_pass_maps_unique_C5_witness :
    dictLookup (buildMapping ["Name"] ["name"] (fun _ _ => 0) 75) "Name" = some "name" :=
  exact_pass_maps_unique_C5 ["Name"] ["name"] (fun _ _ => 0) 75 "Name" "name"
    (by decide) (by decide) (by decide) (by decide) (by decide)

/-- Witness for `column_mapping_injective_C6` at a concrete input,
discharging the membership and equal-value hypotheses of `valsInj`. -/
theorem column_mapping_injective_C6_witness :
    ("a", "a") = ("a", "a") ∧ (("a", "a") : String × String).1 = ("a", "a").1 :=
  ⟨rfl,
    (column_mapping_injective_C6 ["a"] ["a"] (fun _ _ => 0) 75).2 ("a", "a")
      (by decide) ("a", "a") (by decide) rfl⟩

/-- C10: for every non-empty workbook, when no sheet name equals the
target after normalization and no fuzzy score reaches the sheet
threshold 70, `find_sheet` returns the workbook's first sheet flagged as
fuzzy-matched — an existing sheet, not a failure. -/
theorem sheet_finder_fallback_C10 (sheets : List String) (target : String)
    (scorer : String → String → Nat)
    (hne : sheets ≠ [])
    (hexact : ∀ s ∈ sheets, normStr s ≠ normStr target)
    (hfuzzy : ∀ s ∈ sheets, scorer (normStr target) (normStr s) < 70) :
    findSheet sheets target scorer = sheets.head?.map (fun s => (s, true))
  ∧ ∃ s₀, sheets.head? = some s₀ ∧ s₀ ∈ sheets := by
  constructor
  · cases hfind : sheets.find? (fun s => normStr s == normStr target) with
    | some s =>
      exfalso
      have hmem : s ∈ sheets := List.mem_of_find?_eq_some hfind
      have heq := List.find?_some hfind
      exact hexact s hmem (by simpa using heq)
    | none =>
      cases hext : extractOne (normStr target)
          ((buildDictBy normStr sheets).map (fun p => p.1)) scorer with
      | none => simp [findSheet, hfind, hext]
      | some ks =>
        rcases ks with ⟨k, sc⟩
        have hk := extractOne_mem hext
        have hks : ∃ s ∈ sheets, k = normStr s := by
          rcases List.mem_map.mp hk.1 with ⟨p, hp, hpk⟩
          exact ⟨p.2, buildDictBy_src hp, by rw [← hpk, buildDictBy_entry hp]⟩
        rcases hks with ⟨s, hs, rfl⟩
        have hlt : sc < 70 := by
          rw [hk.2]
          exact hfuzzy s hs
        have hnot : ¬(sc ≥ 70) := by omega
        simp [findSheet, hfind, hext, hnot]
  · cases sheets with
    | nil => exact absurd rfl hne
    | cons a t => exact ⟨a, rfl, by simp⟩

/-- Witness for `sheet_finder_fallback_C10` at a concrete input. -/
theorem sheet_finder_fallback_C10_witness :
    findSheet ["Sheet1", "Data"] "xyz" (fun _ _ => 0) = some ("Sheet1", true) := by
  have h := (sheet_finder_fallback_C10 ["Sheet1", "Data"] "xyz" (fun _ _ => 0)
    (by decide) (by decide) (by decide)).1
  simpa using h

theorem goScan_some {rows : List (List Value)} :
    ∀ (fuel i m s : Nat), goScan rows i fuel = some (m, s) →
      s = m + 1 ∧ i ≤ m ∧ m < i + fuel ∧ gateRow (rowAt rows m) = true ∧
        ∀ j, i ≤ j → j < m → gateRow (rowAt rows j) = false := by
  intro fuel
  induction fuel with
  | zero => intro i m s h; simp [goScan] at h
  | succ f ih =>
    intro i m s h
    by_cases hg : gateRow (rowAt rows i) = true
    · simp only [goScan, hg, if_true, Option.some.injEq, Prod.mk.injEq] at h
      obtain ⟨rfl, rfl⟩ := h
      exact ⟨rfl, le_refl _, by omega, hg, fun j h1 h2 => by omega⟩
    · have hg' : gateRow (rowAt rows i) = false := by simpa using hg
      simp only [goScan, hg', Bool.false_eq_true, if_false] at h
      have hrec := ih (i + 1) m s h
      refine ⟨hrec.1, by omega, by omega, hrec.2.2.2.1, ?_⟩
      intro j h1 h2
      by_cases hji : j = i
      · subst hji; exact hg'
      · exact hrec.2.2.2.2 j (by omega) h2

theorem goScan_none {rows : List (List Value)} :
    ∀ (fuel i : Nat), goScan rows i fuel = none →
      ∀ j, i ≤ j → j < i + fuel → gateRow (rowAt rows j) = false := by
  intro fuel
  induction fuel with
  | zero => intro i _ j h1 h2; omega
  | succ f ih =>
    intro i h j h1 h2
    by_cases hg : gateRow (rowAt rows i) = true
    · simp [goScan, hg] at h
    · have hg' : gateRow (rowAt rows i) = false := by simpa using hg
      simp only [goScan, hg', Bool.false_eq_true, if_false] at h
      by_cases hji : j = i
      · subst hji; exact hg'
      · exact ih (i + 1) h j (by omega) (by omega)

/-- C7: the binary-gate header locator.  The two required keyword sets
are disjoint; on success the returned main header row lies within the
first `maxScan` rows, its scan string contains at least one keyword from
each set, no earlier scanned row qualifies, and the sub-header row is
`main + 1`; when no scanned row satisfies the gate the result is
`none` (the caller then skips the sheet, a recoverable condition). -/
theorem header_gate_C7 (rows : List (List Value)) (maxScan : Nat) :
    (∀ k ∈ STANDARD_COLS, k ∉ SECTION_HEADERS)
  ∧ (∀ m s, findHeaderRows rows maxScan = some (m, s) →
        s = m + 1 ∧ 1 ≤ m ∧ m ≤ maxScan
      ∧ (∃ k ∈ STANDARD_COLS, strContains (rowStr (rowAt rows m)) k = true)
      ∧ (∃ k ∈ SECTION_HEADERS, strContains (rowStr (rowAt rows m)) k = true)
      ∧ (∀ j, 1 ≤ j → j < m → gateRow (rowAt rows j) = false))
  ∧ (findHeaderRows rows maxScan = none →
      ∀ i, 1 ≤ i → i ≤ maxScan → gateRow (rowAt rows i) = false) := by
  refine ⟨by decide, ?_, ?_⟩
  · intro m s h
    have h' := goScan_some maxScan 1 m s h
    have hgate := h'.2.2.2.1
    have hsplit : (STANDARD_COLS.any (fun k => strContains (rowStr (rowAt rows m)) k)) = true
        ∧ (SECTION_HEADERS.any (fun k => strContains (rowStr (rowAt rows m)) k)) = true := by
      simpa [gateRow] using hgate
    refine ⟨h'.1, h'.2.1, by omega, ?_, ?_, h'.2.2.2.2⟩
    · simpa using List.any_eq_true.mp hsplit.1
    · simpa using List.any_eq_true.mp hsplit.2
  · intro h i h1 h2
    exact goScan_none maxScan 1 h i h1 (by omega)

/-- Witness for `header_gate_C7`: a sheet whose first row is metadata
and whose second row carries both a structural identifier and a section
label is located at main row 2, sub row 3. -/
theorem header_gate_C7_witness :
    (3 : Nat) = 2 + 1 ∧ 1 ≤ (2 : Nat) ∧ (2 : Nat) ≤ 15 := by
  have h := (header_gate_C7
    [[vStr "metadata"], [vStr "ردیف", vStr "گروه مشارکت"]] 15).2.1 2 3 (by decide)
  exact ⟨h.1, h.2.1, h.2.2.1⟩

theorem mem_sanityWarnings_sheet {w : Warning} :
    ∀ {l : List SheetSummary}, w ∈ sanityWarnings l →
      warnSheet w ∈ l.map (fun s => s.name) := by
  intro l
  induction l with
  | nil => intro h; simp [sanityWarnings] at h
  | cons s rest ih =>
    intro h
    simp only [sanityWarnings, List.mem_append] at h
    rcases h with h | h | h
    · by_cases hc : s.employerTotal = 0 ∧ 0 < s.employerItems
      · rw [if_pos hc] at h
        have hw : w = Warning.employerZero s.name s.employerItems := by simpa using h
        subst hw
        simp [warnSheet]
      · rw [if_neg hc] at h
        simp at h
    · by_cases hc : s.contractorTotal = 0 ∧ 0 < s.contractorItems
      · rw [if_pos hc] at h
        have hw : w = Warning.contractorZero s.name s.contractorItems := by simpa using h
        subst hw
        simp [warnSheet]
      · rw [if_neg hc] at h
        simp at h
    · have := ih h
      simp only [List.map_cons, List.mem_cons]
      exact Or.inr this

/-- C8: for every run whose processed sheets have pairwise-distinct
names (they come from a sorted set of common sheet names), every group
whose approved (employer) total is exactly zero while its claimed
(contractor) total is positive and its extracted row count is positive
gets the employer-zero-total warning exactly once; the warning list is
separate from the dispute records and processing continues. -/
theorem warnCount_nil (a : Warning) : ([] : List Warning).count a = 0 := rfl

theorem warnCount_single_ne {a b : Warning} (h : ¬a = b) :
    ([b] : List Warning).count a = 0 := by
  simp [List.count_cons, beq_iff_eq, h]

theorem warnCount_single_self (a : Warning) : ([a] : List Warning).count a = 1 := by
  simp

theorem zero_total_warning_C8 (sheets : List SheetSummary) (g : SheetSummary)
    (hmem : g ∈ sheets)
    (hnd : (sheets.map (fun s => s.name)).Nodup)
    (hez : g.employerTotal = 0)
    (hcp : 0 < g.contractorTotal)
    (hrows : 0 < g.employerItems) :
    (sanityWarnings sheets).count (Warning.employerZero g.name g.employerItems) = 1 := by
  induction sheets with
  | nil => simp at hmem
  | cons s rest ih =>
    have hnd' : (∀ x ∈ rest, ¬x.name = s.name) ∧
        (rest.map (fun s => s.name)).Nodup := by simpa using hnd
    simp only [sanityWarnings, List.count_append]
    rcases List.mem_cons.mp hmem with hg | hg
    · subst hg
      have h1 : (if g.employerTotal = 0 ∧ 0 < g.employerItems
          then [Warning.employerZero g.name g.employerItems] else []).count
            (Warning.employerZero g.name g.employerItems) = 1 := by
        rw [if_pos ⟨hez, hrows⟩]
        exact warnCount_single_self _
      have h2 : (if g.contractorTotal = 0 ∧ 0 < g.contractorItems
          then [Warning.contractorZero g.name g.contractorItems] else []).count
            (Warning.employerZero g.name g.employerItems) = 0 := by
        by_cases hc : g.contractorTotal = 0 ∧ 0 < g.contractorItems
        · rw [if_pos hc]
          exact warnCount_single_ne (by intro hh; exact Warning.noConfusion hh)
        · rw [if_neg hc]
          exact warnCount_nil _
      have h3 : (sanityWarnings rest).count
          (Warning.employerZero g.name g.employerItems) = 0 := by
        apply List.count_eq_zero.mpr
        intro hw
        have hws := mem_sanityWarnings_sheet hw
        simp only [warnSheet] at hws
        rcases List.mem_map.mp hws with ⟨x, hx, hxn⟩
        exact hnd'.1 x hx hxn
      rw [h1, h2, h3]
    · have hne : ¬g.name = s.name := hnd'.1 g hg
      have h1 : (if s.employerTotal = 0 ∧ 0 < s.employerItems
          then [Warning.employerZero s.name s.employerItems] else []).count
            (Warning.employerZero g.name g.employerItems) = 0 := by
        by_cases hc : s.employerTotal = 0 ∧ 0 < s.employerItems
        · rw [if_pos hc]
          refine warnCount_single_ne ?_
          intro hh
          have := congrArg warnSheet hh
          simp only [warnSheet] at this
          exact hne this
        · rw [if_neg hc]
          exact warnCount_nil _
      have h2 : (if s.contractorTotal = 0 ∧ 0 < s.contractorItems
          then [Warning.contractorZero s.name s.contractorItems] else []).count
            (Warning.employerZero g.name g.employerItems) = 0 := by
        by_cases hc : s.contractorTotal = 0 ∧ 0 < s.contractorItems
        · rw [if_pos hc]
          exact warnCount_single_ne (by intro hh; exact Warning.noConfusion hh)
        · rw [if_neg hc]
          exact warnCount_nil _
      rw [h1, h2, ih hg hnd'.2]

/-- Witness for `zero_total_warning_C8` at a concrete run of two
sheets, one healthy and one with a zero employer total. -/
theorem zero_total_warning_C8_witness :
    (sanityWarnings
      [⟨"ok", 10, 10, 3, 3⟩, ⟨"bad", 25, 0, 10, 10⟩]).count
      (Warning.employerZero "bad" 10) = 1 :=
  zero_total_warning_C8
    [⟨"ok", 10, 10, 3, 3⟩, ⟨"bad", 25, 0, 10, 10⟩]
    ⟨"bad", 25, 0, 10, 10⟩
    (by simp) (by simp) rfl (by norm_num) (by norm_num)

/-! ## Claim C3: positional alignment truncates to the shorter frame -/

theorem mem_forRows {g : Nat → List Dispute} {d : Dispute} :
    ∀ n, d ∈ forRows g n → ∃ i, i < n ∧ d ∈ g i := by
  intro n
  induction n with
  | zero => intro h; simp [forRows] at h
  | succ k ih =>
    intro h
    rcases List.mem_append.mp (by simpa [forRows] using h) with h' | h'
    · rcases ih h' with ⟨i, hi, hd⟩
      exact ⟨i, by omega, hd⟩
    · exact ⟨k, by omega, h'⟩

theorem rowDisputes_rowId {dfE dfC : Frame} {mapped : List (String × String)}
    {idCol : Option String} {tol : ℚ} {i : Nat} {d : Dispute}
    (h : d ∈ rowDisputes dfE dfC mapped idCol tol i) :
    d.rowId = rowIdOf dfE idCol i := by
  induction mapped with
  | nil => simp [rowDisputes] at h
  | cons p rest ih =>
    simp only [rowDisputes, List.foldr_cons] at h
    by_cases hr : (compareVals (cellOfRow dfC.cols (dfC.rows.getD i []) p.2)
        (cellOfRow dfE.cols (dfE.rows.getD i []) p.1) tol).1 = true
    · rw [if_pos hr] at h
      exact ih h
    · rw [if_neg hr] at h
      rcases List.mem_cons.mp h with h' | h'
      · rw [h']
      · exact ih h'

theorem getD_take {l : List (List Value)} {m i : Nat} (h : i < m) :
    (l.take m).getD i [] = l.getD i [] := by
  induction l generalizing m i with
  | nil => simp
  | cons r rest ih =>
    cases m with
    | zero => omega
    | succ m' =>
      cases i with
      | zero => simp
      | succ i' =>
        simp only [List.take, List.getD_cons_succ]
        exact ih (by omega)

/-- C3 amended: when no identifier column is found in either frame, the
aligner pairs row i with row i up to the length of the shorter frame and
silently truncates both frames to that length; the surplus rows of the
longer side are dropped, and every dispute record the comparison loop
can produce references a row index below the truncation point — no
record of any kind mentions a surplus row. -/
theorem positional_alignment_C3 (dfE dfC : Frame) (scorer : String → String → Nat)
    (hE : findIdColumn dfE scorer = none) (hC : findIdColumn dfC scorer = none) :
    alignDataframes dfE dfC scorer =
      (⟨dfE.cols, dfE.rows.take (min dfE.rows.length dfC.rows.length)⟩,
       ⟨dfC.cols, dfC.rows.take (min dfE.rows.length dfC.rows.length)⟩, none)
  ∧ (∀ i, i < min dfE.rows.length dfC.rows.length →
      (dfE.rows.take (min dfE.rows.length dfC.rows.length)).getD i []
          = dfE.rows.getD i []
      ∧ (dfC.rows.take (min dfE.rows.length dfC.rows.length)).getD i []
          = dfC.rows.getD i [])
  ∧ (∀ tol mapped d,
      d ∈ compareData (alignDataframes dfE dfC scorer).1
            (alignDataframes dfE dfC scorer).2.1 mapped none tol →
      ∃ i, i < min dfE.rows.length dfC.rows.length ∧ d.rowId = toString (i + 1)) := by
  have halign : alignDataframes dfE dfC scorer =
      (⟨dfE.cols, dfE.rows.take (min dfE.rows.length dfC.rows.length)⟩,
       ⟨dfC.cols, dfC.rows.take (min dfE.rows.length dfC.rows.length)⟩, none) := by
    simp [alignDataframes, hE, hC, optStrTruthy]
  refine ⟨halign, ?_, ?_⟩
  · intro i hi
    exact ⟨getD_take hi, getD_take (by omega)⟩
  · intro tol mapped d hd
    rw [halign] at hd
    rcases mem_forRows _ (by simpa [compareData] using hd) with ⟨i, hi, hrow⟩
    refine ⟨i, by simpa using hi, ?_⟩
    have := rowDisputes_rowId hrow
    simpa [rowIdOf] using this

/-- C3 counterexample: with two claimant-side rows against one
approver-side row and no identifier columns, the aligner truncates both
frames to one row — the surplus second row disappears — and the
comparison of the aligned frames produces no record at all, so the
surplus row is silently dropped rather than reported as missing. -/
theorem positional_truncation_counterexample_C3 :
    findIdColumn ⟨["foo"], [[vStr "a"], [vStr "b"]]⟩ (fun _ _ => 0) = none
  ∧ alignDataframes ⟨["foo"], [[vStr "a"], [vStr "b"]]⟩ ⟨["foo"], [[vStr "a"]]⟩
      (fun _ _ => 0)
      = (⟨["foo"], [[vStr "a"]]⟩, ⟨["foo"], [[vStr "a"]]⟩, none)
  ∧ compareData ⟨["foo"], [[vStr "a"]]⟩ ⟨["foo"], [[vStr "a"]]⟩ [("foo", "foo")]
      none 0.01 = [] :=
  ⟨by decide, by decide, by decide⟩

/-- Witness for `positional_alignment_C3` at a concrete input. -/
theorem positional_alignment_C3_witness :
    alignDataframes ⟨["foo"], [[vStr "a"], [vStr "b"]]⟩ ⟨["foo"], [[vStr "a"]]⟩
      (fun _ _ => 0)
      = (⟨["foo"], [[vStr "a"]]⟩, ⟨["foo"], [[vStr "a"]]⟩, none) := by
  rw [(positional_alignment_C3 ⟨["foo"], [[vStr "a"], [vStr "b"]]⟩
    ⟨["foo"], [[vStr "a"]]⟩ (fun _ _ => 0) (by decide) (by decide)).1]
  decide

/-! ## Claim C4: duplicate alignment keys -/

theorem mem_dedupGo {x : String} :
    ∀ (l seen : List String), x ∈ dedupGo seen l ↔ (x ∈ l ∧ x ∉ seen) := by
  intro l
  induction l with
  | nil => intro seen; simp [dedupGo]
  | cons a rest ih =>
    intro seen
    by_cases ha : a ∈ seen
    · rw [show dedupGo seen (a :: rest) = dedupGo seen rest from by
        simp [dedupGo, ha]]
      rw [ih seen]
      constructor
      · rintro ⟨h1, h2⟩; exact ⟨by simp [h1], h2⟩
      · rintro ⟨h1, h2⟩
        rcases List.mem_cons.mp h1 with h' | h'
        · subst h'; exact absurd ha h2
        · exact ⟨h', h2⟩
    · rw [show dedupGo seen (a :: rest) = a :: dedupGo (a :: seen) rest from by
        simp [dedupGo, ha]]
      constructor
      · intro h
        rcases List.mem_cons.mp h with h' | h'
        · subst h'; exact ⟨by simp, ha⟩
        · have h'' := (ih (a :: seen)).mp h'
          exact ⟨by simp [h''.1], fun hx => h''.2 (by simp [hx])⟩
      · rintro ⟨h1, h2⟩
        rcases List.mem_cons.mp h1 with h' | h'
        · subst h'; simp
        · by_cases hxa : x = a
          · subst hxa; simp
          · refine List.mem_cons.mpr (Or.inr ((ih (a :: seen)).mpr ⟨h', ?_⟩))
            intro hx
            rcases List.mem_cons.mp hx with h'' | h''
            · exact hxa h''
            · exact h2 h''

theorem nodup_dedupGo : ∀ (l seen : List String), (dedupGo seen l).Nodup := by
  intro l
  induction l with
  | nil => intro seen; simp [dedupGo]
  | cons a rest ih =>
    intro seen
    by_cases ha : a ∈ seen
    · rw [show dedupGo seen (a :: rest) = dedupGo seen rest from by simp [dedupGo, ha]]
      exact ih seen
    · rw [show dedupGo seen (a :: rest) = a :: dedupGo (a :: seen) rest from by
        simp [dedupGo, ha]]
      refine List.nodup_cons.mpr ⟨?_, ih (a :: seen)⟩
      intro hmem
      exact ((mem_dedupGo rest (a :: seen)).mp hmem).2 (by simp)

theorem filter_filter_ne {rows : List (List Value)} {kF : List Value → String}
    {k₁ k : String} (hne : k₁ ≠ k) :
    (rows.filter (fun r => kF r == k₁)).filter (fun r => kF r == k) = [] := by
  induction rows with
  | nil => rfl
  | cons r rest ih =>
    by_cases h1 : (kF r == k₁) = true
    · have h2 : (kF r == k) = false := by
        simp only [beq_iff_eq] at h1 ⊢
        simp only [beq_eq_false_iff_ne, ne_eq]
        intro hh
        exact hne (by rw [← h1, hh])
      simp only [List.filter_cons, h1, if_true, h2]
      simpa using ih
    · simp only [List.filter_cons, h1]
      simpa using ih

theorem filter_filter_self {rows : List (List Value)} {kF : List Value → String}
    {k : String} :
    (rows.filter (fun r => kF r == k)).filter (fun r => kF r == k)
      = rows.filter (fun r => kF r == k) := by
  induction rows with
  | nil => rfl
  | cons r rest ih =>
    by_cases h1 : (kF r == k) = true
    · simp only [List.filter_cons, h1, if_true]
      rw [ih]
    · simp only [List.filter_cons, h1]
      simpa using ih

theorem filter_locAll_notmem {rows : List (List Value)} {kF : List Value → String}
    {k : String} :
    ∀ (ks : List String), k ∉ ks →
      (locAll rows kF ks).filter (fun r => kF r == k) = [] := by
  intro ks
  induction ks with
  | nil => intro _; rfl
  | cons k₁ rest ih =>
    intro hk
    have hne : k₁ ≠ k := fun hh => hk (by simp [hh])
    simp only [locAll, List.filter_append]
    rw [ih (fun hh => hk (by simp [hh])), filter_filter_ne hne]
    rfl

theorem filter_locAll_mem {rows : List (List Value)} {kF : List Value → String}
    {k : String} :
    ∀ (ks : List String), ks.Nodup → k ∈ ks →
      (locAll rows kF ks).filter (fun r => kF r == k)
        = rows.filter (fun r => kF r == k) := by
  intro ks
  induction ks with
  | nil => intro _ h; simp at h
  | cons k₁ rest ih =>
    intro hnd hk
    have hnd' := List.nodup_cons.mp hnd
    simp only [locAll, List.filter_append]
    rcases List.mem_cons.mp hk with h' | h'
    · subst h'
      rw [filter_locAll_notmem rest hnd'.1, filter_filter_self]
      simp
    · have hne : k₁ ≠ k := fun hh => hnd'.1 (hh ▸ h')
      rw [ih hnd'.2 h', filter_filter_ne hne]
      simp

/-- C4 amended: when rows collapse to the same normalized identifier,
the aligner keeps them all — for every common key the aligned frames
retain every row bearing that key, with the original multiplicity, on
both sides — and the duplicates are handled silently: the function's
return value carries only the two frames and the identifier column name,
with no warning of any kind. -/
theorem duplicate_keys_all_kept_C4 (dfE dfC : Frame)
    (scorer : String → String → Nat) (e c : String)
    (hE : findIdColumn dfE scorer = some e)
    (hC : findIdColumn dfC scorer = some c)
    (he : e ≠ "") (hc : c ≠ "") (k : String)
    (hkE : k ∈ dfE.rows.map (fun r => valNormalize (cellOfRow dfE.cols r e)))
    (hkC : k ∈ dfC.rows.map (fun r => valNormalize (cellOfRow dfC.cols r c))) :
    ((alignDataframes dfE dfC scorer).1.rows.filter
        (fun r => valNormalize (cellOfRow dfE.cols r e) == k)).length
      = (dfE.rows.filter
        (fun r => valNormalize (cellOfRow dfE.cols r e) == k)).length
  ∧ ((alignDataframes dfE dfC scorer).2.1.rows.filter
        (fun r => valNormalize (cellOfRow dfC.cols r c) == k)).length
      = (dfC.rows.filter
        (fun r => valNormalize (cellOfRow dfC.cols r c) == k)).length
  ∧ (alignDataframes dfE dfC scorer).2.2 = some e := by
  have halign : alignDataframes dfE dfC scorer =
      (⟨dfE.cols, locAll dfE.rows
          (fun r => valNormalize (cellOfRow dfE.cols r e))
          (dedupFirst ((dfE.rows.map (fun r => valNormalize (cellOfRow dfE.cols r e))).filter
            (fun k' => (dfC.rows.map (fun r => valNormalize (cellOfRow dfC.cols r c))).contains k')))⟩,
        ⟨dfC.cols, locAll dfC.rows
          (fun r => valNormalize (cellOfRow dfC.cols r c))
          (dedupFirst ((dfE.rows.map (fun r => valNormalize (cellOfRow dfE.cols r e))).filter
            (fun k' => (dfC.rows.map (fun r => valNormalize (cellOfRow dfC.cols r c))).contains k')))⟩,
        some e) := by
    simp [alignDataframes, hE, hC, optStrTruthy, he, hc]
  have hkmem : k ∈ dedupFirst
      ((dfE.rows.map (fun r => valNormalize (cellOfRow dfE.cols r e))).filter
        (fun k' => (dfC.rows.map (fun r => valNormalize (cellOfRow dfC.cols r c))).contains k')) := by
    refine (mem_dedupGo _ []).mpr ⟨?_, by simp⟩
    refine List.mem_filter.mpr ⟨hkE, ?_⟩
    simpa using hkC
  have hknd := nodup_dedupGo
    ((dfE.rows.map (fun r => valNormalize (cellOfRow dfE.cols r e))).filter
        (fun k' => (dfC.rows.map (fun r => valNormalize (cellOfRow dfC.cols r c))).contains k')) []
  rw [halign]
  exact ⟨congrArg List.length (filter_locAll_mem _ hknd hkmem),
    congrArg List.length (filter_locAll_mem _ hknd hkmem), rfl⟩

/-- C4 counterexample: two claimant rows and two approver rows all
share the normalized key "1"; the aligner returns both frames unchanged
— every occurrence is kept, not just the first — and the return value
has no warning component, so the duplicates are handled silently. -/
theorem duplicate_keys_counterexample_C4 :
    findIdColumn ⟨["ID", "v"], [[vStr "1", vStr "x"], [vStr "1", vStr "y"]]⟩
      (fun _ _ => 0) = some "ID"
  ∧ alignDataframes ⟨["ID", "v"], [[vStr "1", vStr "x"], [vStr "1", vStr "y"]]⟩
      ⟨["ID", "v"], [[vStr "1", vStr "x"], [vStr "1", vStr "z"]]⟩ (fun _ _ => 0)
      = (⟨["ID", "v"], [[vStr "1", vStr "x"], [vStr "1", vStr "y"]]⟩,
         ⟨["ID", "v"], [[vStr "1", vStr "x"], [vStr "1", vStr "z"]]⟩, some "ID")
  ∧ (alignDataframes ⟨["ID", "v"], [[vStr "1", vStr "x"], [vStr "1", vStr "y"]]⟩
      ⟨["ID", "v"], [[vStr "1", vStr "x"], [vStr "1", vStr "z"]]⟩
      (fun _ _ => 0)).1.rows.length = 2 :=
  ⟨by decide, by decide, by decide⟩

/-- Witness for `duplicate_keys_all_kept_C4` at a concrete input. -/
theorem duplicate_keys_all_kept_C4_witness :
    ((alignDataframes ⟨["ID", "v"], [[vStr "1", vStr "x"], [vStr "1", vStr "y"]]⟩
        ⟨["ID", "v"], [[vStr "1", vStr "x"], [vStr "1", vStr "z"]]⟩
        (fun _ _ => 0)).1.rows.filter
      (fun r => valNormalize (cellOfRow ["ID", "v"] r "ID") == "1")).length
    = (([[vStr "1", vStr "x"], [vStr "1", vStr "y"]] : List (List Value)).filter
      (fun r => valNormalize (cellOfRow ["ID", "v"] r "ID") == "1")).length :=
  (duplicate_keys_all_kept_C4
    ⟨["ID", "v"], [[vStr "1", vStr "x"], [vStr "1", vStr "y"]]⟩
    ⟨["ID", "v"], [[vStr "1", vStr "x"], [vStr "1", vStr "z"]]⟩
    (fun _ _ => 0) "ID" "ID" (by decide) (by decide) (by decide) (by decide)
    "1" (by decide) (by decide)).1

end Recon
